import Mathlib

/-!
Verification of the versioned key-value cache engine of `warp-contracts-sqlite`
(`src/SqliteContractCache.ts`).

The repository source contains two variants of the `SqliteContractCache` class
(an older one storing a `hash` column and using `safe-stable-stringify`, and a
newer one storing `state_hash`/`signature` columns, adding `getLess` and
`setSignature`, and using `JSON.stringify`).  The SQL statements they issue for
the table `sort_key_cache` are embedded here as operations on a list of rows:

 - the table is a `List Row` plus the auto-increment counter `nextId`;
 - SQLite TEXT comparison (byte-wise memcmp over UTF-8, which coincides with
   lexicographic comparison of unicode code points) is embedded as `skLt`;
 - `row_number() OVER (ORDER BY sort_key DESC)` ranking is embedded as
   `rankIn` (1 plus the number of strictly greater sort keys of the same key;
   under the schema constraint `UNIQUE (key, sort_key)` there are no ties, so
   this coincides with SQL row numbering);
 - `INSERT OR REPLACE` deletes the conflicting `(key, sort_key)` row and
   appends a fresh row with a fresh id;
 - `ORDER BY sort_key DESC LIMIT 1` is embedded as `maxRow`.

The value codec is external to the repository (the `safe-stable-stringify`
package and the JavaScript built-ins `JSON.stringify`/`JSON.parse`); it is
modelled from the spec as an executable JSON codec over the value type `JVal`:
`jsonV` is the insertion-order serializer (`JSON.stringify`), `encV` the
key-sorting serializer (`safe-stable-stringify`), and `parseV` the parser
(`JSON.parse`).  The transactional behaviour of the `better-sqlite3` backend
(`exec` runs a statement, `prepare` only compiles one) is modelled by `Conn`,
`execSql` and `prepareStmt`.
-/

namespace WarpSqlite

/-! ## Byte-wise text comparison (SQLite TEXT ordering) -/

/-- Lexicographic strict comparison of char lists by code point; this is the
order SQLite uses for TEXT columns (memcmp over UTF-8 bytes). -/
def charsLt : List Char → List Char → Bool
  | [], [] => false
  | [], _ :: _ => true
  | _ :: _, [] => false
  | a :: as, b :: bs => if a < b then true else if b < a then false else charsLt as bs

/-- Strict sort-key comparison, `a < b` as SQLite compares the TEXT column. -/
def skLt (a b : String) : Bool := charsLt a.data b.data

/-- Non-strict sort-key comparison, `a <= b` as SQLite compares TEXT. -/
def skLe (a b : String) : Bool := !(skLt b a)

/-! ## Generic insertion sort (used to model sorted key iteration) -/

/-- Insert `a` into `l` in front of the first element `b` with `le a b`. -/
def ordInsert (le : α → α → Bool) (a : α) : List α → List α
  | [] => [a]
  | b :: l => if le a b then a :: b :: l else b :: ordInsert le a l

/-- Insertion sort by the boolean relation `le`; stable. -/
def insSort (le : α → α → Bool) : List α → List α
  | [] => []
  | a :: l => ordInsert le a (insSort le l)

/-- Key order on pairs whose first component is a string key. -/
def keyLe (p q : String × α) : Bool := skLe p.1 q.1

/-! ## JSON values (the structured payloads stored by the cache) -/

/-- Structured JSON-like values: the payloads handed to `put` and recovered by
the read operations.  Numbers are modelled as integers. -/
inductive JVal where
  | jnull : JVal
  | jbool (b : Bool) : JVal
  | jnum (n : Int) : JVal
  | jstr (s : String) : JVal
  | jarr (xs : List JVal) : JVal
  | jobj (fs : List (String × JVal)) : JVal

open JVal

mutual
/-- Canonical form of a value: object fields are recursively brought into
ascending key order.  Two values are structurally equal (same keys and values
at every nesting level, regardless of field insertion order) exactly when
their canonical forms coincide. -/
def canon : JVal → JVal
  | jnull => jnull
  | jbool b => jbool b
  | jnum n => jnum n
  | jstr s => jstr s
  | jarr xs => jarr (canonList xs)
  | jobj fs => jobj (insSort keyLe (canonFields fs))
/-- Canonical form, mapped over a list of values. -/
def canonList : List JVal → List JVal
  | [] => []
  | x :: xs => canon x :: canonList xs
/-- Canonical form, mapped over the values of a field list. -/
def canonFields : List (String × JVal) → List (String × JVal)
  | [] => []
  | (k, v) :: fs => (k, canon v) :: canonFields fs
end

/-! ## Serialization (modelled from the spec: the Value Codec component;
the implementations live in the external `safe-stable-stringify` package and
the JavaScript `JSON` built-ins, not under `src/`) -/

/-- Decimal digit character for `d < 10`. -/
def digitCh (d : Nat) : Char := Char.ofNat (48 + d)

/-- Lowercase hexadecimal digit character for `d < 16`. -/
def hexDigitCh (d : Nat) : Char := if d < 10 then Char.ofNat (48 + d) else Char.ofNat (87 + d)

/-- Decimal character representation of a natural number. -/
def natChars (m : Nat) : List Char :=
  if m = 0 then [Char.ofNat 48] else (Nat.digits 10 m).reverse.map digitCh

/-- Decimal character representation of an integer (with a leading minus for
negative numbers). -/
def intChars (n : Int) : List Char :=
  if n < 0 then '-' :: natChars n.natAbs else natChars n.toNat

/-- JSON escaping of one character: quote and backslash get a backslash
escape, control characters a `\u00..` escape, everything else is literal. -/
def escapeChar (c : Char) : List Char :=
  if c = '"' ∨ c = '\\' then ['\\', c]
  else if c.toNat < 32 then
    ['\\', 'u', Char.ofNat 48, Char.ofNat 48, hexDigitCh (c.toNat / 16), hexDigitCh (c.toNat % 16)]
  else [c]

/-- JSON escaping of a character list. -/
def escape : List Char → List Char
  | [] => []
  | c :: cs => escapeChar c ++ escape cs

/-- JSON string literal (quotes plus escaped content). -/
def strChars (s : String) : List Char := '"' :: (escape s.data ++ ['"'])

/-- Comma-separated concatenation of rendered items. -/
def joinComma : List (List Char) → List Char
  | [] => []
  | [cs] => cs
  | cs :: rest => cs ++ ',' :: joinComma rest

/-- Rendering of one already-serialized object field. -/
def renderField (f : String × List Char) : List Char :=
  strChars f.1 ++ ':' :: f.2

mutual
/-- Serializer modelling `JSON.stringify`: object fields are emitted in their
insertion order. -/
def jsonV : JVal → List Char
  | jnull => ['n', 'u', 'l', 'l']
  | jbool true => ['t', 'r', 'u', 'e']
  | jbool false => ['f', 'a', 'l', 's', 'e']
  | jnum n => intChars n
  | jstr s => strChars s
  | jarr xs => '[' :: (joinComma (jsonList xs) ++ [']'])
  | jobj fs => '\x7b' :: (joinComma ((jsonFieldsList fs).map renderField) ++ ['\x7d'])
/-- The serializations of the elements of an array. -/
def jsonList : List JVal → List (List Char)
  | [] => []
  | x :: xs => jsonV x :: jsonList xs
/-- Each field paired with the serialization of its value, in insertion
order. -/
def jsonFieldsList : List (String × JVal) → List (String × List Char)
  | [] => []
  | (k, v) :: fs => (k, jsonV v) :: jsonFieldsList fs
end

mutual
/-- Serializer modelling `safe-stable-stringify`: at every level the object
fields are emitted in ascending key order, so the output does not depend on
field insertion order. -/
def encV : JVal → List Char
  | jnull => ['n', 'u', 'l', 'l']
  | jbool true => ['t', 'r', 'u', 'e']
  | jbool false => ['f', 'a', 'l', 's', 'e']
  | jnum n => intChars n
  | jstr s => strChars s
  | jarr xs => '[' :: (joinComma (encList xs) ++ [']'])
  | jobj fs => '\x7b' :: (joinComma ((insSort keyLe (encFieldsList fs)).map renderField) ++ ['\x7d'])
/-- The stable serializations of the elements of an array. -/
def encList : List JVal → List (List Char)
  | [] => []
  | x :: xs => encV x :: encList xs
/-- Each field paired with the stable serialization of its value. -/
def encFieldsList : List (String × JVal) → List (String × List Char)
  | [] => []
  | (k, v) :: fs => (k, encV v) :: encFieldsList fs
end

/-- The text stored by the older `put` (line 149): `safeStringify(value)`. -/
def safeStringify (v : JVal) : String := String.mk (encV v)

/-- The text stored by the newer `put` (line 448): `JSON.stringify(value)`. -/
def jsonStringify (v : JVal) : String := String.mk (jsonV v)

/-! ## Parsing (modelled from the spec: `JSON.parse`, applied on every read) -/

/-- Value of one hexadecimal digit character. -/
def hexVal (c : Char) : Option Nat :=
  if c.isDigit then some (c.toNat - 48)
  else if 'a' ≤ c ∧ c ≤ 'f' then some (c.toNat - 87)
  else none

/-- Parse the body of a JSON string literal up to the closing quote, undoing
the escapes; returns the decoded characters and the remaining input. -/
def parseStringBody : List Char → Option (List Char × List Char)
  | [] => none
  | c :: rest =>
    if c = '"' then some ([], rest)
    else if c = '\\' then
      match rest with
      | 'u' :: h1 :: h2 :: h3 :: h4 :: r2 =>
        match hexVal h1, hexVal h2, hexVal h3, hexVal h4 with
        | some a, some b, some d1, some d2 =>
          match parseStringBody r2 with
          | some (cs, r3) => some (Char.ofNat (a * 4096 + b * 256 + d1 * 16 + d2) :: cs, r3)
          | none => none
        | _, _, _, _ => none
      | c2 :: r2 =>
        if c2 = '"' ∨ c2 = '\\' then
          match parseStringBody r2 with
          | some (cs, r3) => some (c2 :: cs, r3)
          | none => none
        else none
      | [] => none
    else
      match parseStringBody rest with
      | some (cs, r3) => some (c :: cs, r3)
      | none => none

/-- Accumulate decimal digit characters into a natural number. -/
def natFromDigitChars (ds : List Char) : Nat :=
  ds.foldl (fun a c => a * 10 + (c.toNat - 48)) 0

/-- Parse a maximal run of decimal digits; fails on an empty run. -/
def parseNatChars (l : List Char) : Option (Nat × List Char) :=
  let ds := l.takeWhile (·.isDigit)
  if ds.isEmpty then none else some (natFromDigitChars ds, l.dropWhile (·.isDigit))

mutual
/-- Recursive-descent JSON parser (a model of `JSON.parse` on the texts the
serializers emit); `fuel` bounds the recursion depth. -/
def parseV : Nat → List Char → Option (JVal × List Char)
  | 0, _ => none
  | _ + 1, [] => none
  | fuel + 1, c :: rest =>
    if c = '-' then
      match parseNatChars rest with
      | some (n, r) => some (jnum (-(n : Int)), r)
      | none => none
    else if c.isDigit then
      match parseNatChars (c :: rest) with
      | some (n, r) => some (jnum (n : Int), r)
      | none => none
    else
      match c, rest with
      | 'n', 'u' :: 'l' :: 'l' :: r => some (jnull, r)
      | 't', 'r' :: 'u' :: 'e' :: r => some (jbool true, r)
      | 'f', 'a' :: 'l' :: 's' :: 'e' :: r => some (jbool false, r)
      | '"', r =>
        match parseStringBody r with
        | some (cs, r2) => some (jstr (String.mk cs), r2)
        | none => none
      | '[', r =>
        match parseItems fuel r with
        | some (xs, r2) => some (jarr xs, r2)
        | none => none
      | '\x7b', r =>
        match parseFields fuel r with
        | some (fs, r2) => some (jobj fs, r2)
        | none => none
      | _, _ => none
/-- Parse the items of an array after the opening bracket, including the
closing bracket. -/
def parseItems : Nat → List Char → Option (List JVal × List Char)
  | 0, _ => none
  | fuel + 1, l =>
    if l.head? = some ']' then some ([], l.tail)
    else
      match parseV fuel l with
      | some (v, l2) =>
        match l2 with
        | ',' :: l3 =>
          match parseItems fuel l3 with
          | some (vs, l4) => some (v :: vs, l4)
          | none => none
        | ']' :: l3 => some ([v], l3)
        | _ => none
      | none => none
/-- Parse the fields of an object after the opening brace, including the
closing brace. -/
def parseFields : Nat → List Char → Option (List (String × JVal) × List Char)
  | 0, _ => none
  | fuel + 1, l =>
    if l.head? = some '\x7d' then some ([], l.tail)
    else
      match l with
      | '"' :: l2 =>
        match parseStringBody l2 with
        | some (kcs, l3) =>
          match l3 with
          | ':' :: l4 =>
            match parseV fuel l4 with
            | some (v, l5) =>
              match l5 with
              | ',' :: l6 =>
                match parseFields fuel l6 with
                | some (fs, l7) => some ((String.mk kcs, v) :: fs, l7)
                | none => none
              | '\x7d' :: l6 => some ([(String.mk kcs, v)], l6)
              | _ => none
            | none => none
          | _ => none
        | none => none
      | _ => none
end

/-- Deserialization as done on every read: `JSON.parse` of the stored text. -/
def jsonParse (s : String) : Option JVal :=
  match parseV (s.data.length + 1) s.data with
  | some (v, []) => some v
  | _ => none

mutual
/-- Fuel sufficient for `parseV` to parse the serialization of a value. -/
def fnVal : JVal → Nat
  | jnull => 1
  | jbool _ => 1
  | jnum _ => 1
  | jstr _ => 1
  | jarr xs => 1 + fnItems xs
  | jobj fs => 1 + fnFields fs
/-- Fuel sufficient for `parseItems` on the serialized items. -/
def fnItems : List JVal → Nat
  | [] => 1
  | [x] => 1 + fnVal x
  | x :: xs => 1 + fnVal x + fnItems xs
/-- Fuel sufficient for `parseFields` on the serialized fields. -/
def fnFields : List (String × JVal) → Nat
  | [] => 1
  | [f] => 1 + fnVal f.2
  | f :: fs => 1 + fnVal f.2 + fnFields fs
end

/-! ## The `sort_key_cache` table and the cache operations -/

/-- One row of the table `sort_key_cache`.  The older variant of the schema
has a single `hash` column and no `signature`; it is embedded into the same
row type, with `state_hash` playing the role of `hash` and `signature` unused
(empty). -/
structure Row where
  id : Nat
  key : String
  sort_key : String
  value : String
  state_hash : String
  signature : String
deriving DecidableEq

/-- The table contents plus the auto-increment id counter. -/
structure Store where
  rows : List Row
  nextId : Nat
deriving DecidableEq

/-- A freshly created (empty) table. -/
def emptyStore : Store := ⟨[], 1⟩

/-- Rows of the given key, i.e. `SELECT ... WHERE key = ?`. -/
def entriesFor (st : Store) (k : String) : List Row :=
  st.rows.filter (fun r => r.key == k)

/-- Number of entries of `ss` strictly greater than `x` in SQLite TEXT
order. -/
def cntGt (ss : List String) (x : String) : Nat :=
  (ss.filter (fun y => skLt x y)).length

/-- Rank of sort key `sk` among the rows of key `k`, as computed by
`row_number() OVER (ORDER BY sort_key DESC)`: 1 for the greatest sort key.
Under `UNIQUE (key, sort_key)` the per-key sort keys are distinct, so this is
exactly the SQL row number. -/
def rankIn (st : Store) (k : String) (sk : String) : Nat :=
  cntGt ((entriesFor st k).map Row.sort_key) sk + 1

/-- The schema invariant enforced by `UNIQUE (key, sort_key)`. -/
abbrev WF (st : Store) : Prop :=
  (st.rows.map (fun r => (r.key, r.sort_key))).Nodup

/-- The `removeOldestEntries` statement (lines 169-183 and 468-482): delete
every row of `key` whose rank is at least `maxEntries`. -/
def removeOldestEntries (maxEntries : Nat) (st : Store) (k : String) : Store :=
  { st with rows :=
      st.rows.filter (fun r => !(r.key == k && decide (maxEntries ≤ rankIn st k r.sort_key))) }

/-- The `INSERT OR REPLACE` statement: the conflicting `(key, sort_key)` row
(if any) is deleted and a fresh row is appended with a fresh id. -/
def insertOrReplace (st : Store) (k sk val hash sig : String) : Store :=
  { rows := st.rows.filter (fun r => !(r.key == k && r.sort_key == sk)) ++
      [⟨st.nextId, k, sk, val, hash, sig⟩],
    nextId := st.nextId + 1 }

/-- The older `put` (lines 147-161): first `removeOldestEntries`, then upsert
the serialized value together with its hash (`generateHash` is the external
sha256; it is a parameter here). -/
def put (maxEntries : Nat) (genHash : String → String) (st : Store) (k sk : String)
    (v : JVal) : Store :=
  let st1 := removeOldestEntries maxEntries st k
  let strVal := safeStringify v
  insertOrReplace st1 k sk strVal (genHash strVal) ""

/-- Column list of the newer `sort_key_cache` schema (lines 348-362):
`state_hash` and `signature`; there is no `validity_hash` column. -/
def schemaColumns : List String :=
  [("id"), ("key"), ("sort_key"), ("value"), ("state_hash"), ("signature")]

/-- The columns named by the newer `put`'s INSERT statement (line 456). -/
def putInsertColumns : List String :=
  [("key"), ("sort_key"), ("value"), ("state_hash"), ("validity_hash")]

/-- Modelled from the spec: `better-sqlite3`'s `prepare` compiles the
statement eagerly, and SQLite resolves every column named by an INSERT
against the table's schema at prepare time, so a statement naming an
unknown column throws `table sort_key_cache has no column named <col>`
before anything executes. -/
def prepareColumnsCheck (cols : List String) : Except String Unit :=
  match cols.find? (fun c => !(schemaColumns.contains c)) with
  | some c => Except.error (("table sort_key_cache has no column named ") ++ c)
  | none => Except.ok ()

/-- The newer `put` (lines 442-466): it first evicts with
`removeOldestEntries` (line 444), then prepares an INSERT that names the
nonexistent column `validity_hash` (line 456).  The prepare throws, so the
INSERT never runs: the error propagates with the eviction already applied
and no text stored.  The `ok` branch mirrors the statement's serialization
(`JSON.stringify`, empty `state_hash`) and is unreachable. -/
def putJson (maxEntries : Nat) (st : Store) (k sk : String) (v : JVal) :
    Except (String × Store) Store :=
  let st1 := removeOldestEntries maxEntries st k
  match prepareColumnsCheck putInsertColumns with
  | Except.error e => Except.error (e, st1)
  | Except.ok _ => Except.ok (insertOrReplace st1 k sk (jsonStringify v) "" "")

/-- A sequence of `put` calls against one key. -/
def putMany (maxEntries : Nat) (genHash : String → String) (st : Store) (k : String)
    (ps : List (String × JVal)) : Store :=
  ps.foldl (fun s p => put maxEntries genHash s k p.1 p.2) st

/-- The `get` query (lines 92-110): exact match on `(key, sort_key)`, null
when absent; the JavaScript truthiness test on the selected value makes an
empty stored text come back as null as well.  The stored text is returned
(the caller applies `JSON.parse`). -/
def getValue (st : Store) (k sk : String) : Option String :=
  match st.rows.find? (fun r => r.key == k && r.sort_key == sk) with
  | some r => if r.value == "" then none else some r.value
  | none => none

/-- The row selected by `ORDER BY sort_key DESC LIMIT 1`. -/
def maxRow : List Row → Option Row
  | [] => none
  | r :: l =>
    match maxRow l with
    | none => some r
    | some m => if skLt m.sort_key r.sort_key then some r else some m

/-- The `getLast` query (lines 112-126): the row of `key` with the greatest
sort key; null when the key has no rows (or the selected value is empty, by
the JavaScript truthiness test).  Returns the sort key and the stored text. -/
def getLast (st : Store) (k : String) : Option (String × String) :=
  match maxRow (entriesFor st k) with
  | some r => if r.value == "" then none else some (r.sort_key, r.value)
  | none => none

/-- The `getLessOrEqual` query (lines 128-145): the row of `key` with the
greatest sort key `<=` the bound. -/
def getLessOrEqual (st : Store) (k sk : String) : Option (String × String) :=
  match maxRow ((entriesFor st k).filter (fun r => skLe r.sort_key sk)) with
  | some r => if r.value == "" then none else some (r.sort_key, r.value)
  | none => none

/-- The `getLess` query (lines 423-440): the row of `key` with the greatest
sort key strictly below the bound. -/
def getLess (st : Store) (k sk : String) : Option (String × String) :=
  match maxRow ((entriesFor st k).filter (fun r => skLt r.sort_key sk)) with
  | some r => if r.value == "" then none else some (r.sort_key, r.value)
  | none => none

/-- The `getLastSortKey` query (lines 215-221 and 514-520):
`SELECT max(sort_key)` over the whole table, with the result compared against
the empty string (`lastSortKey == "" ? null : lastSortKey`; the SQL `max` of
an empty table is NULL, and JavaScript `null == ""` is false, so an empty
table also yields null). -/
def getLastSortKey (st : Store) : Option String :=
  match maxRow st.rows with
  | some r => if r.sort_key == "" then none else some r.sort_key
  | none => none

/-- The `delete` operation (lines 185-187): remove every row of `key`. -/
def deleteKey (st : Store) (k : String) : Store :=
  { st with rows := st.rows.filter (fun r => !(r.key == k)) }

/-- The statistics returned by `prune`; sizes are reported as `-1`. -/
structure PruneStats where
  entriesBefore : Nat
  entriesAfter : Nat
  sizeBefore : Int
  sizeAfter : Int
deriving DecidableEq

/-- The `prune` operation (lines 239-269 and 538-568): clamp a non-positive
`entriesStored` to 1, count all rows, delete every row whose rank within its
own key partition exceeds `entriesStored`, and report the counts (the number
of changes of the DELETE is the number of removed rows). -/
def prune (entriesStored : Int) (st : Store) : Store × PruneStats :=
  let s : Nat := if entriesStored ≤ 0 then 1 else entriesStored.toNat
  let allItems := st.rows.length
  let rows2 := st.rows.filter (fun r => decide (rankIn st r.key r.sort_key ≤ s))
  let changes := allItems - rows2.length
  ({ st with rows := rows2 },
   { entriesBefore := allItems, entriesAfter := allItems - changes,
     sizeBefore := -1, sizeAfter := -1 })

/-- The `setSignature` operation (lines 570-585): `UPDATE sort_key_cache SET
state_hash = ?, signature = ? WHERE key = ? AND sort_key = ?`. -/
def setSignature (st : Store) (k sk hash sig : String) : Store :=
  { st with rows := st.rows.map (fun r =>
      if r.key == k && r.sort_key == sk
      then { r with state_hash := hash, signature := sig } else r) }

/-! ## Configuration and construction (constructor, lines 21-37/293-309) -/

/-- The options consumed from `CacheOptions` of `warp-contracts`. -/
structure CacheOptions where
  dbLocation : Option String
  inMemory : Bool
deriving DecidableEq

/-- The sqlite-specific options. -/
structure SqliteCacheOptions where
  maxEntriesPerContract : Nat
deriving DecidableEq

/-- JavaScript truthiness of an optional string: absent and empty are both
falsy. -/
def truthy : Option String → Bool
  | none => false
  | some s => !(s == "")

/-- A successfully constructed cache: the options it retains. -/
structure CacheInstance where
  cacheOptions : CacheOptions
  sqliteCacheOptions : SqliteCacheOptions
deriving DecidableEq

/-- The constructor: it throws whenever `cacheOptions.dbLocation` is falsy
(before ever consulting `inMemory`), and defaults `maxEntriesPerContract` to
10 when no sqlite options are supplied. -/
def mkSqliteContractCache (cacheOptions : CacheOptions)
    (sqliteCacheOptions : Option SqliteCacheOptions) : Except String CacheInstance :=
  if truthy cacheOptions.dbLocation then
    Except.ok
      { cacheOptions := cacheOptions,
        sqliteCacheOptions := sqliteCacheOptions.getD ⟨10⟩ }
  else Except.error ("Sqlite cache configuration error - no db location specified")

/-! ## The backend connection and transactions (modelled from the spec:
`better-sqlite3` is the external Storage Backend; `exec` runs a statement,
`prepare` only compiles a statement object and runs nothing) -/

/-- Connection state: the current table contents, and — when a transaction is
open — the snapshot taken at `BEGIN` (which is what survives a rollback and
what is durable before the commit). -/
structure Conn where
  store : Store
  txn : Option Store
deriving DecidableEq

/-- The statement text `BEGIN;`. -/
def beginStmt : String := "BEGIN;"

/-- The statement text `COMMIT;`. -/
def commitStmt : String := "COMMIT;"

/-- The statement text `ROLLBACK;`. -/
def rollbackStmt : String := "ROLLBACK;"

/-- Executing one of the transaction-control statements on the backend. -/
def execSql (c : Conn) (sql : String) : Except String Conn :=
  if sql == beginStmt then
    match c.txn with
    | some _ => Except.error beginStmt
    | none => Except.ok { c with txn := some c.store }
  else if sql == commitStmt then
    match c.txn with
    | none => Except.error commitStmt
    | some _ => Except.ok { c with txn := none }
  else if sql == rollbackStmt then
    match c.txn with
    | none => Except.error rollbackStmt
    | some s0 => Except.ok { store := s0, txn := none }
  else Except.error sql

/-- Compiling a statement with `db.prepare(...)` without calling `.run()`:
nothing is executed, the connection state is unchanged. -/
def prepareStmt (c : Conn) (_sql : String) : Conn := c

/-- The newer `begin` (lines 497-499): `this.db.exec("BEGIN;")`. -/
def beginTx (c : Conn) : Except String Conn := execSql c beginStmt

/-- The newer `commit` (lines 505-507): `this.db.exec("COMMIT;")`. -/
def commitTx (c : Conn) : Except String Conn := execSql c commitStmt

/-- The newer `rollback` (lines 501-503): `this.db.exec("ROLLBACK;")`. -/
def rollbackTx (c : Conn) : Except String Conn := execSql c rollbackStmt

/-- The older `begin` (lines 198-200): `this.db.prepare("BEGIN;")` — the
statement is compiled but never run. -/
def beginPrepared (c : Conn) : Conn := prepareStmt c beginStmt

/-- The older `commit` (lines 206-208): `this.db.prepare("COMMIT;")`. -/
def commitPrepared (c : Conn) : Conn := prepareStmt c commitStmt

/-- The older `rollback` (lines 202-204): `this.db.prepare("ROLLBACK;")`. -/
def rollbackPrepared (c : Conn) : Conn := prepareStmt c rollbackStmt

/-- Applying a write operation to the table through the connection. -/
def liftWrite (f : Store → Store) (c : Conn) : Conn := { c with store := f c.store }

/-- The durable table contents: outside of a transaction the current rows,
inside a transaction the snapshot taken at `BEGIN` (writes issued since then
are not yet committed). -/
def durable (c : Conn) : Store :=
  match c.txn with
  | none => c.store
  | some s0 => s0

/-! ## Order facts for the byte-wise text comparison -/

theorem charsLt_irrefl (l : List Char) : charsLt l l = false := by
  induction l with
  | nil => rfl
  | cons a as ih => simp [charsLt, ih]

theorem charsLt_asymm : ∀ {l1 l2 : List Char}, charsLt l1 l2 = true → charsLt l2 l1 = false
  | [], [], h => by simp [charsLt] at h
  | [], _ :: _, _ => rfl
  | _ :: _, [], h => by simp [charsLt] at h
  | a :: as, b :: bs, h => by
    simp only [charsLt] at h ⊢
    rcases lt_trichotomy a b with hab | hab | hab
    · simp [hab, asymm hab]
    · subst hab; simp only [lt_irrefl, if_false] at h ⊢
      exact charsLt_asymm h
    · simp [hab, asymm hab] at h

theorem charsLt_trans : ∀ {l1 l2 l3 : List Char},
    charsLt l1 l2 = true → charsLt l2 l3 = true → charsLt l1 l3 = true
  | [], _, _ :: _, _, _ => rfl
  | [], _ :: _, [], _, h2 => by simp [charsLt] at h2
  | [], [], [], h1, _ => by simp [charsLt] at h1
  | _ :: _, [], _, h1, _ => by simp [charsLt] at h1
  | _ :: _, _ :: _, [], _, h2 => by simp [charsLt] at h2
  | a :: as, b :: bs, c :: cs, h1, h2 => by
    simp only [charsLt] at h1 h2 ⊢
    rcases lt_trichotomy a b with hab | hab | hab
    · rcases lt_trichotomy b c with hbc | hbc | hbc
      · have : a < c := lt_trans hab hbc
        simp [this]
      · subst hbc; simp [hab]
      · simp [hbc, asymm hbc] at h2
    · subst hab
      rcases lt_trichotomy a c with hac | hac | hac
      · simp [hac]
      · subst hac
        simp only [lt_irrefl, if_false] at h1 h2 ⊢
        exact charsLt_trans h1 h2
      · simp [hac, asymm hac] at h2
    · simp [hab, asymm hab] at h1

theorem charsLt_antisymm : ∀ {l1 l2 : List Char},
    charsLt l1 l2 = false → charsLt l2 l1 = false → l1 = l2
  | [], [], _, _ => rfl
  | [], _ :: _, h1, _ => by simp [charsLt] at h1
  | _ :: _, [], _, h2 => by simp [charsLt] at h2
  | a :: as, b :: bs, h1, h2 => by
    simp only [charsLt] at h1 h2
    rcases lt_trichotomy a b with hab | hab | hab
    · simp [hab] at h1
    · subst hab
      simp only [lt_irrefl, if_false] at h1 h2
      rw [charsLt_antisymm h1 h2]
    · simp [hab] at h2

theorem string_data_inj {a b : String} (h : a.data = b.data) : a = b :=
  String.ext h

theorem skLt_irrefl (a : String) : skLt a a = false := charsLt_irrefl a.data

theorem skLt_asymm {a b : String} (h : skLt a b = true) : skLt b a = false :=
  charsLt_asymm h

theorem skLt_trans {a b c : String} (h1 : skLt a b = true) (h2 : skLt b c = true) :
    skLt a c = true :=
  charsLt_trans h1 h2

theorem skLt_antisymm {a b : String} (h1 : skLt a b = false) (h2 : skLt b a = false) :
    a = b :=
  string_data_inj (charsLt_antisymm h1 h2)

theorem skLe_refl (a : String) : skLe a a = true := by
  simp [skLe, skLt_irrefl]

theorem skLe_of_skLt {a b : String} (h : skLt a b = true) : skLe a b = true := by
  simp [skLe, skLt_asymm h]

theorem skLe_total (a b : String) : skLe a b = true ∨ skLe b a = true := by
  rcases hba : skLt b a with _ | _
  · exact Or.inl (by simp [skLe, hba])
  · exact Or.inr (by simp [skLe, skLt_asymm hba])

theorem skLt_of_not_skLt {a b : String} (h : skLt a b = false) (hne : a ≠ b) :
    skLt b a = true := by
  rcases hba : skLt b a with _ | _
  · exact absurd (skLt_antisymm h hba) hne
  · rfl

theorem skLe_trans {a b c : String} (h1 : skLe a b = true) (h2 : skLe b c = true) :
    skLe a c = true := by
  simp only [skLe, Bool.not_eq_true'] at h1 h2 ⊢
  rcases hca : skLt c a with _ | _
  · rfl
  · exfalso
    rcases hv : skLt b c with _ | _
    · have hcb : c = b := skLt_antisymm h2 hv
      subst hcb
      rw [hca] at h1
      cases h1
    · have hba := skLt_trans hv hca
      rw [hba] at h1
      cases h1

theorem skLt_of_skLe_of_ne {a b : String} (h : skLe a b = true) (hne : a ≠ b) :
    skLt a b = true := by
  simp only [skLe, Bool.not_eq_true'] at h
  exact skLt_of_not_skLt h (fun he => hne he.symm)

theorem skLe_iff_not_skLt {a b : String} : skLe a b = true ↔ skLt b a = false := by
  simp [skLe]

/-! ## Facts about the generic insertion sort -/

theorem ordInsert_perm (le : α → α → Bool) (a : α) (l : List α) :
    List.Perm (ordInsert le a l) (a :: l) := by
  induction l with
  | nil => exact List.Perm.refl _
  | cons b t ih =>
    by_cases h : le a b = true
    · simp [ordInsert, h]
    · simp only [ordInsert, h, if_false, Bool.false_eq_true]
      exact (ih.cons b).trans (List.Perm.swap a b t)

theorem insSort_perm (le : α → α → Bool) (l : List α) : List.Perm (insSort le l) l := by
  induction l with
  | nil => exact List.Perm.refl _
  | cons a t ih => exact (ordInsert_perm le a (insSort le t)).trans (ih.cons a)

theorem pairwise_ordInsert (le : α → α → Bool)
    (htot : ∀ x y, le x y = true ∨ le y x = true)
    (htr : ∀ x y z, le x y = true → le y z = true → le x z = true)
    (a : α) (l : List α) (h : l.Pairwise (fun x y => le x y = true)) :
    (ordInsert le a l).Pairwise (fun x y => le x y = true) := by
  induction l with
  | nil => simp [ordInsert]
  | cons b t ih =>
    rcases List.pairwise_cons.mp h with ⟨hb, ht⟩
    by_cases hab : le a b = true
    · simp only [ordInsert, hab, if_true]
      refine List.pairwise_cons.mpr ⟨?_, h⟩
      intro y hy
      rcases List.mem_cons.mp hy with rfl | hy
      · exact hab
      · exact htr a b y hab (hb y hy)
    · simp only [ordInsert, hab, if_false, Bool.false_eq_true]
      refine List.pairwise_cons.mpr ⟨?_, ih ht⟩
      intro y hy
      have hy2 := (ordInsert_perm le a t).mem_iff.mp hy
      rcases List.mem_cons.mp hy2 with rfl | hy3
      · rcases htot y b with hv | hv
        · exact absurd hv hab
        · exact hv
      · exact hb y hy3

theorem pairwise_insSort (le : α → α → Bool)
    (htot : ∀ x y, le x y = true ∨ le y x = true)
    (htr : ∀ x y z, le x y = true → le y z = true → le x z = true)
    (l : List α) : (insSort le l).Pairwise (fun x y => le x y = true) := by
  induction l with
  | nil => simp [insSort]
  | cons a t ih => exact pairwise_ordInsert le htot htr a _ ih

theorem insSort_of_pairwise (le : α → α → Bool) (l : List α)
    (h : l.Pairwise (fun x y => le x y = true)) : insSort le l = l := by
  induction l with
  | nil => rfl
  | cons a t ih =>
    rcases List.pairwise_cons.mp h with ⟨ha, ht⟩
    rw [insSort, ih ht]
    cases t with
    | nil => rfl
    | cons b t2 =>
      have : le a b = true := ha b (List.mem_cons_self b t2)
      simp [ordInsert, this]

theorem insSort_idem (le : α → α → Bool)
    (htot : ∀ x y, le x y = true ∨ le y x = true)
    (htr : ∀ x y z, le x y = true → le y z = true → le x z = true)
    (l : List α) : insSort le (insSort le l) = insSort le l :=
  insSort_of_pairwise le _ (pairwise_insSort le htot htr l)

theorem ordInsert_map (le1 : α → α → Bool) (le2 : β → β → Bool) (f : α → β)
    (hf : ∀ a b, le2 (f a) (f b) = le1 a b) (a : α) (l : List α) :
    ordInsert le2 (f a) (l.map f) = (ordInsert le1 a l).map f := by
  induction l with
  | nil => rfl
  | cons b t ih =>
    by_cases h : le1 a b = true
    · simp [ordInsert, hf, h]
    · simp [ordInsert, hf, h, ih]

theorem insSort_map (le1 : α → α → Bool) (le2 : β → β → Bool) (f : α → β)
    (hf : ∀ a b, le2 (f a) (f b) = le1 a b) (l : List α) :
    insSort le2 (l.map f) = (insSort le1 l).map f := by
  induction l with
  | nil => rfl
  | cons a t ih => rw [List.map_cons, insSort, ih, insSort, ordInsert_map le1 le2 f hf]

theorem keyLe_total (p q : String × α) : keyLe p q = true ∨ keyLe q p = true :=
  skLe_total p.1 q.1

theorem keyLe_trans (p q r : String × α) (h1 : keyLe p q = true) (h2 : keyLe q r = true) :
    keyLe p r = true :=
  skLe_trans h1 h2

/-! ## Facts about the selected maximum row -/

theorem maxRow_eq_none {l : List Row} : maxRow l = none ↔ l = [] := by
  cases l with
  | nil => simp [maxRow]
  | cons r t =>
    simp only [maxRow]
    cases h2 : maxRow t with
    | none => simp
    | some m =>
      by_cases hlt : skLt m.sort_key r.sort_key = true <;> simp [hlt]

theorem maxRow_mem : ∀ {l : List Row} {m : Row}, maxRow l = some m → m ∈ l := by
  intro l
  induction l with
  | nil => intro m h; simp [maxRow] at h
  | cons r t ih =>
    intro m h
    cases h2 : maxRow t with
    | none =>
      simp only [maxRow, h2] at h
      injection h with h
      exact h ▸ List.mem_cons_self r t
    | some m0 =>
      simp only [maxRow, h2] at h
      by_cases hlt : skLt m0.sort_key r.sort_key = true
      · rw [if_pos hlt] at h
        injection h with h
        exact h ▸ List.mem_cons_self r t
      · rw [if_neg hlt] at h
        injection h with h
        exact List.mem_cons_of_mem r (h ▸ ih h2)

theorem maxRow_ge : ∀ {l : List Row} {m : Row}, maxRow l = some m →
    ∀ r ∈ l, skLt m.sort_key r.sort_key = false := by
  intro l
  induction l with
  | nil => intro m h; simp [maxRow] at h
  | cons r t ih =>
    intro m h x hx
    cases h2 : maxRow t with
    | none =>
      simp only [maxRow, h2] at h
      injection h with h
      subst h
      rcases List.mem_cons.mp hx with rfl | hx2
      · exact skLt_irrefl _
      · rw [maxRow_eq_none.mp h2] at hx2
        cases hx2
    | some m0 =>
      simp only [maxRow, h2] at h
      by_cases hlt : skLt m0.sort_key r.sort_key = true
      · rw [if_pos hlt] at h
        injection h with h
        subst h
        rcases List.mem_cons.mp hx with rfl | hx2
        · exact skLt_irrefl _
        · have hm0 := ih h2 x hx2
          rcases hv : skLt r.sort_key x.sort_key with _ | _
          · rfl
          · rw [skLt_trans hlt hv] at hm0
            cases hm0
      · rw [if_neg hlt] at h
        injection h with h
        subst h
        rcases List.mem_cons.mp hx with rfl | hx2
        · rcases hv : skLt m0.sort_key x.sort_key with _ | _
          · rfl
          · exact absurd hv hlt
        · exact ih h2 x hx2

/-! ## Facts about the rank computation -/

theorem cntGt_perm {ss ss2 : List String} (h : List.Perm ss ss2) (x : String) :
    cntGt ss x = cntGt ss2 x := by
  simp only [cntGt, ← List.countP_eq_length_filter]
  exact h.countP_eq _

theorem cntGt_sublist {ss ss2 : List String} (h : List.Sublist ss ss2) (x : String) :
    cntGt ss x ≤ cntGt ss2 x :=
  List.Sublist.length_le (h.filter _)

theorem cntGt_cons (y : String) (ss : List String) (x : String) :
    cntGt (y :: ss) x = (if skLt x y = true then 1 else 0) + cntGt ss x := by
  by_cases h : skLt x y = true
  · simp [cntGt, List.filter_cons, h, Nat.add_comm]
  · simp [cntGt, List.filter_cons, h]

theorem cntGt_mono_lt {a b : String} (h : skLt a b = true) (ss : List String) :
    cntGt ss b ≤ cntGt ss a := by
  simp only [cntGt, ← List.countP_eq_length_filter]
  refine List.countP_mono_left ?_
  intro y _ hy
  exact skLt_trans h hy

theorem cntGt_strict {a b : String} {ss : List String} (hb : b ∈ ss)
    (h : skLt a b = true) : cntGt ss b < cntGt ss a := by
  induction ss with
  | nil => cases hb
  | cons y t ih =>
    rw [cntGt_cons, cntGt_cons]
    have hcontrib : (if skLt b y = true then 1 else 0) ≤ (if skLt a y = true then 1 else 0) := by
      by_cases hv : skLt b y = true
      · simp [hv, skLt_trans h hv]
      · by_cases hw : skLt a y = true <;> simp [hv, hw]
    rcases List.mem_cons.mp hb with rfl | hbt
    · have hmono := cntGt_mono_lt h t
      have e1 : (if skLt b b = true then 1 else 0) = 0 := by simp [skLt_irrefl]
      have e2 : (if skLt a b = true then 1 else 0) = 1 := by simp [h]
      rw [e1, e2]
      omega
    · have hlt := ih hbt
      omega

theorem cntGt_head_eq {a : String} {t : List String} (h : ∀ x ∈ t, skLt a x = true) :
    cntGt (a :: t) a = t.length := by
  rw [cntGt_cons]
  have e1 : (if skLt a a = true then 1 else 0) = 0 := by simp [skLt_irrefl]
  rw [e1]
  simp only [cntGt]
  rw [List.filter_eq_self.mpr h]
  omega

theorem cntGt_tail {a x : String} {t : List String} (hax : skLt a x = true) :
    cntGt (a :: t) x = cntGt t x := by
  rw [cntGt_cons]
  have hxa : skLt x a = false := skLt_asymm hax
  simp [hxa]

theorem sorted_filter_rank (S : Nat) :
    ∀ (l : List String), l.Pairwise (fun p q => skLt p q = true) →
      l.filter (fun x => decide (cntGt l x < S)) = l.drop (l.length - S) := by
  intro l
  induction l with
  | nil => simp
  | cons a t ih =>
    intro hp
    rcases List.pairwise_cons.mp hp with ⟨ha, ht⟩
    have hhead : cntGt (a :: t) a = t.length := cntGt_head_eq ha
    have htail : ∀ x ∈ t,
        (decide (cntGt (a :: t) x < S)) = (decide (cntGt t x < S)) := by
      intro x hx
      rw [cntGt_tail (ha x hx)]
    rw [List.filter_cons, List.filter_congr htail, ih ht, hhead]
    by_cases hS : t.length < S
    · have h1 : t.length - S = 0 := by omega
      have h2 : t.length + 1 - S = 0 := by omega
      simp [hS, h1, h2]
    · have h2 : t.length + 1 - S = (t.length - S) + 1 := by omega
      simp [hS, h2]

theorem length_filter_rank_lt {l : List String} (hnd : l.Nodup) (S : Nat) :
    (l.filter (fun x => decide (cntGt l x < S))).length = min l.length S := by
  have hperm : List.Perm (insSort skLe l) l := insSort_perm skLe l
  have hnd2 : (insSort skLe l).Nodup := hperm.nodup_iff.mpr hnd
  have hsortedLe := pairwise_insSort skLe skLe_total (fun x y z h1 h2 => skLe_trans h1 h2) l
  have hsorted : (insSort skLe l).Pairwise (fun x y => skLt x y = true) := by
    have hand := hsortedLe.and hnd2
    exact hand.imp (fun h => skLt_of_skLe_of_ne h.1 h.2)
  have hlen : (insSort skLe l).length = l.length := hperm.length_eq
  have e1 : ((insSort skLe l).filter (fun x => decide (cntGt l x < S))).length
      = (l.filter (fun x => decide (cntGt l x < S))).length :=
    (hperm.filter _).length_eq
  have e2 : (insSort skLe l).filter (fun x => decide (cntGt l x < S))
      = (insSort skLe l).filter (fun x => decide (cntGt (insSort skLe l) x < S)) := by
    apply List.filter_congr
    intro x hx
    rw [cntGt_perm hperm]
  rw [← e1, e2, sorted_filter_rank S _ hsorted, List.length_drop, hlen]
  omega

/-! ## Partitioning row counts by key -/

theorem length_filter_split (p : α → Bool) (l : List α) :
    l.length = (l.filter p).length + (l.filter (fun a => !(p a))).length := by
  induction l with
  | nil => rfl
  | cons a t ih =>
    by_cases h : p a = true <;>
      simp [List.filter_cons, h, ih] <;> omega

theorem rows_length_eq_sum (keys : List String) :
    ∀ (rows : List Row), keys.Nodup → (∀ r ∈ rows, r.key ∈ keys) →
      rows.length = (keys.map (fun k => (rows.filter (fun r => r.key == k)).length)).sum := by
  induction keys with
  | nil =>
    intro rows _ hcov
    cases rows with
    | nil => rfl
    | cons r t => exact absurd (hcov r (List.mem_cons_self r t)) (List.not_mem_nil r.key)
  | cons k ks ih =>
    intro rows hnd hcov
    rcases List.nodup_cons.mp hnd with ⟨hk, hks⟩
    have hsplit := length_filter_split (fun r => r.key == k) rows
    have hcov2 : ∀ r ∈ rows.filter (fun r => !(r.key == k)), r.key ∈ ks := by
      intro r hr
      rcases List.mem_filter.mp hr with ⟨hmem, hnk⟩
      rcases List.mem_cons.mp (hcov r hmem) with he | h2
      · simp only [Bool.not_eq_true', beq_eq_false_iff_ne, ne_eq] at hnk
        exact absurd he hnk
      · exact h2
    have ihr := ih (rows.filter (fun r => !(r.key == k))) hks hcov2
    have hmap : ∀ k2 ∈ ks,
        ((rows.filter (fun r => !(r.key == k))).filter (fun r => r.key == k2)).length
          = (rows.filter (fun r => r.key == k2)).length := by
      intro k2 hk2
      rw [List.filter_filter]
      congr 1
      apply List.filter_congr
      intro r _
      by_cases hrk : r.key = k2
      · have hne2 : ¬ k2 = k := fun he => hk (he ▸ hk2)
        have hne : ¬ r.key = k := by
          rw [hrk]
          exact hne2
        simp [hrk, hne, hne2]
      · simp [hrk]
    rw [List.map_cons, List.sum_cons, hsplit]
    congr 1
    rw [ihr]
    apply congrArg
    apply List.map_congr_left
    intro k2 hk2
    exact hmap k2 hk2

/-! ## Characterizing the store operations on the rows of one key -/

theorem mem_entriesFor {st : Store} {k : String} {r : Row} :
    r ∈ entriesFor st k ↔ r ∈ st.rows ∧ r.key = k := by
  simp [entriesFor, List.mem_filter]

theorem entriesFor_filter_comm (rows : List Row) (n m : Nat) (p : Row → Bool) (k : String) :
    entriesFor ⟨rows.filter p, n⟩ k = (entriesFor ⟨rows, m⟩ k).filter p := by
  simp only [entriesFor, List.filter_filter]
  apply List.filter_congr
  intro r _
  rw [Bool.and_comm]

theorem rankIn_eq (st : Store) (k sk : String) :
    rankIn st k sk = cntGt ((entriesFor st k).map Row.sort_key) sk + 1 := rfl

theorem removeOldest_rows (maxEntries : Nat) (st : Store) (k : String) :
    entriesFor (removeOldestEntries maxEntries st k) k
      = (entriesFor st k).filter
          (fun r => decide (cntGt ((entriesFor st k).map Row.sort_key) r.sort_key + 1 < maxEntries)) := by
  cases st with
  | mk rows n =>
    rw [removeOldestEntries]
    rw [entriesFor_filter_comm rows n n _ k]
    apply List.filter_congr
    intro r hr
    have hk : r.key = k := (mem_entriesFor.mp hr).2
    have hbeq : (r.key == k) = true := by simp [hk]
    rw [hbeq]
    rw [rankIn_eq]
    by_cases h : maxEntries ≤ cntGt ((entriesFor ⟨rows, n⟩ k).map Row.sort_key) r.sort_key + 1
    · have h2 : ¬ (cntGt ((entriesFor ⟨rows, n⟩ k).map Row.sort_key) r.sort_key + 1 < maxEntries) := by
        omega
      simp [h, h2]
    · have h2 : cntGt ((entriesFor ⟨rows, n⟩ k).map Row.sort_key) r.sort_key + 1 < maxEntries := by
        omega
      simp [h, h2]

theorem removeOldest_frame (maxEntries : Nat) (st : Store) (k k2 : String) (hne : k2 ≠ k) :
    entriesFor (removeOldestEntries maxEntries st k) k2 = entriesFor st k2 := by
  cases st with
  | mk rows n =>
    rw [removeOldestEntries]
    rw [entriesFor_filter_comm rows n n _ k2]
    apply List.filter_eq_self.mpr
    intro r hr
    have hk : r.key = k2 := (mem_entriesFor.mp hr).2
    have : (r.key == k) = false := by
      simp only [beq_eq_false_iff_ne, ne_eq, hk]
      exact hne
    simp [this]

theorem removeOldest_nextId (maxEntries : Nat) (st : Store) (k : String) :
    (removeOldestEntries maxEntries st k).nextId = st.nextId := rfl

theorem insertOrReplace_rows (st : Store) (k sk v h sig : String) :
    entriesFor (insertOrReplace st k sk v h sig) k
      = (entriesFor st k).filter (fun r => !(r.sort_key == sk))
          ++ [⟨st.nextId, k, sk, v, h, sig⟩] := by
  cases st with
  | mk rows n =>
    simp only [insertOrReplace, entriesFor, List.filter_append]
    congr 1
    · simp only [List.filter_filter]
      apply List.filter_congr
      intro r _
      by_cases hk : r.key = k
      · simp [hk]
      · have hb : (r.key == k) = false := by
          simp only [beq_eq_false_iff_ne, ne_eq]
          exact hk
        simp [hb]
    · simp

theorem insertOrReplace_frame (st : Store) (k sk v h sig : String) (k2 : String)
    (hne : k2 ≠ k) :
    entriesFor (insertOrReplace st k sk v h sig) k2 = entriesFor st k2 := by
  cases st with
  | mk rows n =>
    simp only [insertOrReplace, entriesFor, List.filter_append]
    have h1 : (List.filter (fun r => r.key == k2)
        [(⟨n, k, sk, v, h, sig⟩ : Row)]) = [] := by
      simp [List.filter_cons]
      exact fun he => absurd he.symm hne
    rw [h1, List.append_nil, List.filter_filter]
    apply List.filter_congr
    intro r _
    by_cases hk : r.key = k2
    · have hrk : r.key ≠ k := by
        rw [hk]
        exact hne
      simp [hk, hrk]
      exact Or.inl hne
    · simp [hk]

theorem put_rows (maxEntries : Nat) (genHash : String → String) (st : Store)
    (k sk : String) (v : JVal) :
    entriesFor (put maxEntries genHash st k sk v) k
      = ((entriesFor st k).filter
            (fun r => decide (cntGt ((entriesFor st k).map Row.sort_key) r.sort_key + 1 < maxEntries))).filter
          (fun r => !(r.sort_key == sk))
          ++ [⟨st.nextId, k, sk, safeStringify v, genHash (safeStringify v), ""⟩] := by
  rw [put, insertOrReplace_rows, removeOldest_rows, removeOldest_nextId]

theorem put_frame (maxEntries : Nat) (genHash : String → String) (st : Store)
    (k sk : String) (v : JVal) (k2 : String) (hne : k2 ≠ k) :
    entriesFor (put maxEntries genHash st k sk v) k2 = entriesFor st k2 := by
  rw [put, insertOrReplace_frame _ _ _ _ _ _ _ hne, removeOldest_frame _ _ _ _ hne]

/-! ## Well-formedness (the UNIQUE constraint) and per-key distinctness -/

theorem nodup_snd_of_pairs {l : List Row} (k : String) (hall : ∀ r ∈ l, r.key = k)
    (hnd : (l.map (fun r => (r.key, r.sort_key))).Nodup) :
    (l.map Row.sort_key).Nodup := by
  induction l with
  | nil => simp
  | cons r t ih =>
    simp only [List.map_cons, List.nodup_cons] at hnd ⊢
    rcases hnd with ⟨hnotin, hnd2⟩
    refine ⟨?_, ih (fun x hx => hall x (List.mem_cons_of_mem r hx)) hnd2⟩
    intro hmem
    rcases List.mem_map.mp hmem with ⟨r2, hr2, hsk⟩
    apply hnotin
    apply List.mem_map.mpr
    refine ⟨r2, hr2, ?_⟩
    rw [hall r2 (List.mem_cons_of_mem r hr2), hall r (List.mem_cons_self r t), hsk]

theorem WF_sortKeys_nodup {st : Store} (hwf : WF st) (k : String) :
    ((entriesFor st k).map Row.sort_key).Nodup := by
  apply nodup_snd_of_pairs k
  · intro r hr
    exact (mem_entriesFor.mp hr).2
  · have hsub : List.Sublist (entriesFor st k) st.rows := List.filter_sublist st.rows
    exact List.Nodup.sublist (hsub.map _) hwf

theorem WF_put {st : Store} (hwf : WF st) (maxEntries : Nat) (genHash : String → String)
    (k sk : String) (v : JVal) : WF (put maxEntries genHash st k sk v) := by
  rw [put]
  show ((((removeOldestEntries maxEntries st k).rows.filter _) ++ _).map _).Nodup
  rw [List.map_append]
  apply List.nodup_append.mpr
  have hro : WF (removeOldestEntries maxEntries st k) := by
    exact List.Nodup.sublist ((List.filter_sublist st.rows).map _) hwf
  refine ⟨List.Nodup.sublist ((List.filter_sublist _).map _) hro, by simp, ?_⟩
  intro p hp
  rcases List.mem_map.mp hp with ⟨r, hr, hpr⟩
  rcases List.mem_filter.mp hr with ⟨_, hcond⟩
  simp only [List.map_cons, List.map_nil, List.mem_singleton]
  intro hcontra
  rw [hcontra] at hpr
  have h1 : r.key = k := congrArg Prod.fst hpr
  have h2 : r.sort_key = sk := congrArg Prod.snd hpr
  rw [h1, h2] at hcond
  simp at hcond

/-! ## Claim C7: constructor and the missing-location error -/

/-- C7 counterexample: constructing a cache with `inMemory = true` and no
`dbLocation` does NOT succeed — the constructor checks
`!this.cacheOptions.dbLocation` before ever consulting `inMemory` and throws
the configuration error. -/
theorem c7_counterexample :
    mkSqliteContractCache ⟨none, true⟩ none
      = Except.error ("Sqlite cache configuration error - no db location specified") := by
  rfl

/-- C7 (amended): construction fails with the fatal configuration error
exactly when `dbLocation` is falsy (absent or empty), regardless of
`inMemory`; with a truthy `dbLocation` it succeeds, and a missing
`sqliteCacheOptions` defaults `maxEntriesPerContract` to 10. -/
theorem c7_constructor_spec (co : CacheOptions) (so : Option SqliteCacheOptions) :
    (truthy co.dbLocation = false →
      mkSqliteContractCache co so
        = Except.error ("Sqlite cache configuration error - no db location specified"))
    ∧ (truthy co.dbLocation = true →
      mkSqliteContractCache co so = Except.ok ⟨co, so.getD ⟨10⟩⟩) := by
  constructor
  · intro h
    simp [mkSqliteContractCache, h]
  · intro h
    simp [mkSqliteContractCache, h]

/-- C7 witness: both branches of the characterization at concrete inputs. -/
theorem c7_constructor_spec_witness :
    (truthy (some ("./cache/db")) = true
      ∧ mkSqliteContractCache ⟨some ("./cache/db"), false⟩ none
          = Except.ok ⟨⟨some ("./cache/db"), false⟩, ⟨10⟩⟩)
    ∧ (truthy (none : Option String) = false
      ∧ mkSqliteContractCache ⟨none, false⟩ (some ⟨3⟩)
          = Except.error ("Sqlite cache configuration error - no db location specified")) :=
  ⟨⟨by decide, (c7_constructor_spec ⟨some ("./cache/db"), false⟩ none).2 (by decide)⟩,
   ⟨by decide, (c7_constructor_spec ⟨none, false⟩ (some ⟨3⟩)).1 (by decide)⟩⟩

/-! ## Claim C10: the global maximum sort key -/

theorem skLt_empty_left {s : String} (h : skLt ("") s = false) : s = "" := by
  apply string_data_inj
  cases hd : s.data with
  | nil => rfl
  | cons c cs =>
    exfalso
    have : skLt ("") s = true := by
      simp only [skLt, hd]
      rfl
    rw [this] at h
    cases h

/-- C10 counterexample: a non-empty store whose only sort key is the empty
string.  `SELECT max(sort_key)` returns `""`, the code compares it with
`== ""` and returns null, so null is returned although the store has an
entry — refuting "returns null exactly when the store contains no
entries". -/
theorem c10_counterexample :
    getLastSortKey ⟨[⟨1, ("k"), (""), ("v"), (""), ("")⟩], 2⟩ = none
    ∧ (⟨[⟨1, ("k"), (""), ("v"), (""), ("")⟩], 2⟩ : Store).rows ≠ [] := by
  decide

/-- C10 (amended): `getLastSortKey` returns some `m` only when `m` is a
maximum sort key of the whole store (all keys); it returns null exactly when
every stored sort key is the empty string — which covers the empty store and
additionally any store whose maximum sort key is `""`, because the result of
`max(sort_key)` is compared against the empty string before being
returned. -/
theorem c10_getLastSortKey_spec (st : Store) :
    (getLastSortKey st = none ↔ ∀ r ∈ st.rows, r.sort_key = "")
    ∧ (∀ m, getLastSortKey st = some m →
        (∃ r ∈ st.rows, r.sort_key = m) ∧ ∀ r ∈ st.rows, skLe r.sort_key m = true) := by
  cases hm : maxRow st.rows with
  | none =>
    have hnil : st.rows = [] := maxRow_eq_none.mp hm
    constructor
    · simp only [getLastSortKey, hm]
      simp [hnil]
    · intro m h
      simp only [getLastSortKey, hm] at h
      cases h
  | some r0 =>
    have hr0 : r0 ∈ st.rows := maxRow_mem hm
    have hge := maxRow_ge hm
    by_cases he : r0.sort_key = ""
    · have hbeq : (r0.sort_key == "") = true := by simp [he]
      constructor
      · simp only [getLastSortKey, hm, hbeq]
        simp only [if_true, true_iff]
        intro r hr
        have hlt := hge r hr
        rw [he] at hlt
        exact skLt_empty_left hlt
      · intro m h
        simp only [getLastSortKey, hm, hbeq] at h
        simp at h
    · have hbeq : (r0.sort_key == "") = false := by simp [he]
      constructor
      · simp only [getLastSortKey, hm, hbeq]
        simp only [Bool.false_eq_true, if_false]
        constructor
        · intro h
          cases h
        · intro hall
          exact absurd (hall r0 hr0) he
      · intro m h
        simp only [getLastSortKey, hm, hbeq] at h
        simp only [Bool.false_eq_true, if_false, Option.some.injEq] at h
        subst h
        refine ⟨⟨r0, hr0, rfl⟩, ?_⟩
        intro r hr
        rw [skLe, hge r hr]
        rfl

/-- C10 witness: the characterization applied to a two-row store whose
maximum sort key is `"b"`. -/
theorem c10_getLastSortKey_spec_witness :
    getLastSortKey ⟨[⟨1, ("k"), ("a"), ("v"), (""), ("")⟩,
                     ⟨2, ("k2"), ("b"), ("w"), (""), ("")⟩], 3⟩ = some ("b")
    ∧ ((∃ r ∈ (⟨[⟨1, ("k"), ("a"), ("v"), (""), ("")⟩,
                  ⟨2, ("k2"), ("b"), ("w"), (""), ("")⟩], 3⟩ : Store).rows, r.sort_key = "b")
      ∧ ∀ r ∈ (⟨[⟨1, ("k"), ("a"), ("v"), (""), ("")⟩,
                  ⟨2, ("k2"), ("b"), ("w"), (""), ("")⟩], 3⟩ : Store).rows,
          skLe r.sort_key ("b") = true) :=
  ⟨by decide,
   (c10_getLastSortKey_spec ⟨[⟨1, ("k"), ("a"), ("v"), (""), ("")⟩,
      ⟨2, ("k2"), ("b"), ("w"), (""), ("")⟩], 3⟩).2 "b" (by decide)⟩

/-! ## Claim C9: setSignature updates only hash and signature -/

theorem setSig_row_key (k sk h sig : String) (r : Row) :
    ((if r.key == k && r.sort_key == sk
      then { r with state_hash := h, signature := sig } else r) : Row).key = r.key := by
  by_cases hc : (r.key == k && r.sort_key == sk) = true
  · simp [hc]
  · simp [hc]

theorem setSig_row_sk (k sk h sig : String) (r : Row) :
    ((if r.key == k && r.sort_key == sk
      then { r with state_hash := h, signature := sig } else r) : Row).sort_key = r.sort_key := by
  by_cases hc : (r.key == k && r.sort_key == sk) = true
  · simp [hc]
  · simp [hc]

theorem setSig_row_value (k sk h sig : String) (r : Row) :
    ((if r.key == k && r.sort_key == sk
      then { r with state_hash := h, signature := sig } else r) : Row).value = r.value := by
  by_cases hc : (r.key == k && r.sort_key == sk) = true
  · simp [hc]
  · simp [hc]

theorem getValue_setSignature (st : Store) (k sk h sig k2 sk2 : String) :
    getValue (setSignature st k sk h sig) k2 sk2 = getValue st k2 sk2 := by
  cases st with
  | mk rows n =>
    simp only [getValue, setSignature]
    induction rows with
    | nil => rfl
    | cons r t ih =>
      rw [List.map_cons, List.find?_cons, List.find?_cons]
      rw [setSig_row_key, setSig_row_sk]
      by_cases hp : (r.key == k2 && r.sort_key == sk2) = true
      · simp only [hp]
        rw [setSig_row_value]
      · rw [Bool.not_eq_true] at hp
        simp only [hp]
        exact ih

/-- C9: `setSignature(key, sortKey, hash, signature)` only updates the
`state_hash` and `signature` columns of the matching row: every read of a
value is unaffected, the row count and the `(key, sort_key, value)` content
of every row are unchanged, a missing `(key, sortKey)` target makes the
whole operation a silent no-op that creates no entry, rows that do not match
are untouched entirely, and a matching row gets exactly the given hash and
signature. -/
theorem c9_setSignature_spec (st : Store) (k sk h sig : String) :
    (∀ k2 sk2, getValue (setSignature st k sk h sig) k2 sk2 = getValue st k2 sk2)
    ∧ (setSignature st k sk h sig).rows.length = st.rows.length
    ∧ ((setSignature st k sk h sig).rows.map (fun r => (r.key, r.sort_key, r.value))
        = st.rows.map (fun r => (r.key, r.sort_key, r.value)))
    ∧ ((∀ r ∈ st.rows, ¬(r.key = k ∧ r.sort_key = sk)) → setSignature st k sk h sig = st)
    ∧ (∀ r ∈ st.rows, ¬(r.key = k ∧ r.sort_key = sk) → r ∈ (setSignature st k sk h sig).rows)
    ∧ (∀ r ∈ st.rows, r.key = k → r.sort_key = sk →
        ({ r with state_hash := h, signature := sig } : Row) ∈ (setSignature st k sk h sig).rows) := by
  refine ⟨fun k2 sk2 => getValue_setSignature st k sk h sig k2 sk2, ?_, ?_, ?_, ?_, ?_⟩
  · simp [setSignature]
  · rw [setSignature]
    show (st.rows.map _).map _ = _
    rw [List.map_map]
    apply List.map_congr_left
    intro r _
    simp only [Function.comp_apply]
    rw [setSig_row_key, setSig_row_sk, setSig_row_value]
  · intro hnone
    rw [setSignature]
    cases st with
    | mk rows n =>
      simp only [Store.mk.injEq, and_true]
      have : ∀ r ∈ rows, (if r.key == k && r.sort_key == sk
          then ({ r with state_hash := h, signature := sig } : Row) else r) = r := by
        intro r hr
        have hc : (r.key == k && r.sort_key == sk) = false := by
          rcases hv : (r.key == k && r.sort_key == sk) with _ | _
          · rfl
          · exfalso
            rcases Bool.and_eq_true_iff.mp hv with ⟨h1, h2⟩
            exact hnone r hr ⟨by simpa using h1, by simpa using h2⟩
        rw [hc]
        simp
      calc rows.map _ = rows.map id := List.map_congr_left this
        _ = rows := List.map_id rows
  · intro r hr hmatch
    rw [setSignature]
    apply List.mem_map.mpr
    refine ⟨r, hr, ?_⟩
    have hc : (r.key == k && r.sort_key == sk) = false := by
      rcases hv : (r.key == k && r.sort_key == sk) with _ | _
      · rfl
      · exfalso
        rcases Bool.and_eq_true_iff.mp hv with ⟨h1, h2⟩
        exact hmatch ⟨by simpa using h1, by simpa using h2⟩
    rw [hc]
    simp
  · intro r hr h1 h2
    rw [setSignature]
    apply List.mem_map.mpr
    refine ⟨r, hr, ?_⟩
    have hc : (r.key == k && r.sort_key == sk) = true := by simp [h1, h2]
    rw [hc]
    simp

/-- C9 witness: on a two-row store, updating the signature of `(K, a)` keeps
the read of the other row's value, leaves the untouched row intact, and
places the given hash and signature on the matching row. -/
theorem c9_setSignature_spec_witness :
    getValue (setSignature ⟨[⟨1, ("K"), ("a"), ("v"), ("oldh"), ("olds")⟩,
        ⟨2, ("K"), ("b"), ("w"), (""), ("")⟩], 3⟩ ("K") ("a") ("h2") ("s2")) ("K") ("b")
      = getValue ⟨[⟨1, ("K"), ("a"), ("v"), ("oldh"), ("olds")⟩,
        ⟨2, ("K"), ("b"), ("w"), (""), ("")⟩], 3⟩ ("K") ("b")
    ∧ (⟨2, ("K"), ("b"), ("w"), (""), ("")⟩ : Row)
        ∈ (setSignature ⟨[⟨1, ("K"), ("a"), ("v"), ("oldh"), ("olds")⟩,
            ⟨2, ("K"), ("b"), ("w"), (""), ("")⟩], 3⟩ ("K") ("a") ("h2") ("s2")).rows
    ∧ (⟨1, ("K"), ("a"), ("v"), ("h2"), ("s2")⟩ : Row)
        ∈ (setSignature ⟨[⟨1, ("K"), ("a"), ("v"), ("oldh"), ("olds")⟩,
            ⟨2, ("K"), ("b"), ("w"), (""), ("")⟩], 3⟩ ("K") ("a") ("h2") ("s2")).rows :=
  ⟨(c9_setSignature_spec ⟨[⟨1, ("K"), ("a"), ("v"), ("oldh"), ("olds")⟩,
      ⟨2, ("K"), ("b"), ("w"), (""), ("")⟩], 3⟩ ("K") ("a") ("h2") ("s2")).1 ("K") ("b"),
   (c9_setSignature_spec ⟨[⟨1, ("K"), ("a"), ("v"), ("oldh"), ("olds")⟩,
      ⟨2, ("K"), ("b"), ("w"), (""), ("")⟩], 3⟩ ("K") ("a") ("h2") ("s2")).2.2.2.2.1
        ⟨2, ("K"), ("b"), ("w"), (""), ("")⟩ (by decide) (by decide),
   (c9_setSignature_spec ⟨[⟨1, ("K"), ("a"), ("v"), ("oldh"), ("olds")⟩,
      ⟨2, ("K"), ("b"), ("w"), (""), ("")⟩], 3⟩ ("K") ("a") ("h2") ("s2")).2.2.2.2.2
        ⟨1, ("K"), ("a"), ("v"), ("oldh"), ("olds")⟩ (by decide) (by decide) (by decide)⟩

/-! ## Claim C5: prune is idempotent for a fixed entriesStored -/

theorem rankIn_filter_le (rows : List Row) (n m : Nat) (p : Row → Bool) (k sk : String) :
    rankIn ⟨rows.filter p, n⟩ k sk ≤ rankIn ⟨rows, m⟩ k sk := by
  rw [rankIn_eq, rankIn_eq]
  have hsub : List.Sublist (((entriesFor ⟨rows, m⟩ k).filter p).map Row.sort_key)
      ((entriesFor ⟨rows, m⟩ k).map Row.sort_key) :=
    (List.filter_sublist _).map _
  rw [entriesFor_filter_comm rows n m p k]
  have := cntGt_sublist hsub sk
  omega

/-- C5: running `prune` a second time with the same (positive)
`entriesStored` deletes nothing: the store is unchanged and the returned
statistics report `entriesBefore = entriesAfter`. -/
theorem c5_prune_idempotent (st : Store) (S : Int) (hS : 1 ≤ S) :
    (prune S (prune S st).1).1 = (prune S st).1
    ∧ (prune S (prune S st).1).2.entriesBefore = (prune S (prune S st).1).2.entriesAfter := by
  have hSpos : ¬ (S ≤ 0) := by omega
  cases st with
  | mk rows n =>
    have hfix : ((prune S ⟨rows, n⟩).1.rows.filter
        (fun r => decide (rankIn (prune S ⟨rows, n⟩).1 r.key r.sort_key ≤
          (if S ≤ 0 then 1 else S.toNat)))) = (prune S ⟨rows, n⟩).1.rows := by
      apply List.filter_eq_self.mpr
      intro r hr
      simp only [prune] at hr
      have hkept := List.mem_filter.mp hr
      have hrank1 := of_decide_eq_true hkept.2
      have hle : rankIn (prune S ⟨rows, n⟩).1 r.key r.sort_key ≤ rankIn ⟨rows, n⟩ r.key r.sort_key := by
        simp only [prune]
        exact rankIn_filter_le rows n n _ r.key r.sort_key
      simp only [decide_eq_true_eq]
      omega
    constructor
    · simp only [prune]
      simp only [prune] at hfix
      rw [hfix]
    · simp only [prune]
      simp only [prune] at hfix
      rw [hfix]
      simp

/-- C5 witness: pruning twice with `entriesStored = 1` on a two-row store. -/
theorem c5_prune_idempotent_witness :
    ((1 : Int) ≤ 1)
    ∧ ((prune 1 (prune 1 ⟨[⟨1, ("K"), ("a"), ("v"), (""), ("")⟩,
          ⟨2, ("K"), ("b"), ("w"), (""), ("")⟩], 3⟩).1).1
        = (prune 1 ⟨[⟨1, ("K"), ("a"), ("v"), (""), ("")⟩,
            ⟨2, ("K"), ("b"), ("w"), (""), ("")⟩], 3⟩).1
      ∧ (prune 1 (prune 1 ⟨[⟨1, ("K"), ("a"), ("v"), (""), ("")⟩,
          ⟨2, ("K"), ("b"), ("w"), (""), ("")⟩], 3⟩).1).2.entriesBefore
        = (prune 1 (prune 1 ⟨[⟨1, ("K"), ("a"), ("v"), (""), ("")⟩,
            ⟨2, ("K"), ("b"), ("w"), (""), ("")⟩], 3⟩).1).2.entriesAfter) :=
  ⟨by decide,
   c5_prune_idempotent ⟨[⟨1, ("K"), ("a"), ("v"), (""), ("")⟩,
     ⟨2, ("K"), ("b"), ("w"), (""), ("")⟩], 3⟩ 1 (by decide)⟩

/-! ## Claim C8: transaction control -/

/-- C8 counterexample: in the variant at lines 198-208 the transaction
methods call `this.db.prepare("...")` without ever running the prepared
statement, so nothing is executed on the backend: after `begin()`, a write,
and `rollback()`, the written row is still there — the store is NOT back to
its state at `begin()`, refuting the claim for this variant. -/
theorem c8_counterexample :
    (rollbackPrepared (liftWrite
        (fun s => insertOrReplace s ("K") ("a") ("v") ("") (""))
        (beginPrepared ⟨emptyStore, none⟩))).store ≠ emptyStore := by
  decide

/-- C8 (amended): in the variant using `db.exec` (lines 497-507), `begin`,
`commit` and `rollback` really execute `BEGIN`, `COMMIT` and `ROLLBACK` on
the backend: after `begin()` a transaction is open (and the pre-transaction
store is what is durable while it stays open), `commit()` makes the writes
issued since `begin` durable, and `rollback()` restores the store to its
state at `begin()`.  In the variant at lines 198-208 the three methods only
prepare the statements and never run them, so each leaves the connection
state exactly unchanged. -/
theorem c8_transactions_spec (c : Conn) (hc : c.txn = none) (f : Store → Store) :
    beginTx c = Except.ok ⟨c.store, some c.store⟩
    ∧ (⟨c.store, some c.store⟩ : Conn).txn.isSome = true
    ∧ rollbackTx (liftWrite f ⟨c.store, some c.store⟩) = Except.ok ⟨c.store, none⟩
    ∧ commitTx (liftWrite f ⟨c.store, some c.store⟩) = Except.ok ⟨f c.store, none⟩
    ∧ durable (liftWrite f ⟨c.store, some c.store⟩) = c.store
    ∧ durable (⟨f c.store, none⟩ : Conn) = f c.store
    ∧ beginPrepared c = c
    ∧ commitPrepared (liftWrite f c) = liftWrite f c
    ∧ rollbackPrepared (liftWrite f c) = liftWrite f c := by
  cases c with
  | mk s txn =>
    cases hc
    refine ⟨?_, rfl, ?_, ?_, rfl, rfl, rfl, rfl, rfl⟩
    · rfl
    · simp [rollbackTx, execSql, liftWrite, beginStmt, commitStmt, rollbackStmt]
    · simp [commitTx, execSql, liftWrite, beginStmt, commitStmt, rollbackStmt]

/-- C8 witness: the executed-transaction semantics on a concrete connection
and a concrete write. -/
theorem c8_transactions_spec_witness :
    (⟨emptyStore, none⟩ : Conn).txn = none
    ∧ (beginTx ⟨emptyStore, none⟩ = Except.ok ⟨emptyStore, some emptyStore⟩
      ∧ (⟨emptyStore, some emptyStore⟩ : Conn).txn.isSome = true
      ∧ rollbackTx (liftWrite (fun s => insertOrReplace s ("K") ("a") ("v") ("") (""))
          ⟨emptyStore, some emptyStore⟩) = Except.ok ⟨emptyStore, none⟩
      ∧ commitTx (liftWrite (fun s => insertOrReplace s ("K") ("a") ("v") ("") (""))
          ⟨emptyStore, some emptyStore⟩)
        = Except.ok ⟨insertOrReplace emptyStore ("K") ("a") ("v") ("") (""), none⟩
      ∧ durable (liftWrite (fun s => insertOrReplace s ("K") ("a") ("v") ("") (""))
          ⟨emptyStore, some emptyStore⟩) = emptyStore
      ∧ durable (⟨insertOrReplace emptyStore ("K") ("a") ("v") ("") (""), none⟩ : Conn)
        = insertOrReplace emptyStore ("K") ("a") ("v") ("") ("")
      ∧ beginPrepared ⟨emptyStore, none⟩ = ⟨emptyStore, none⟩
      ∧ commitPrepared (liftWrite (fun s => insertOrReplace s ("K") ("a") ("v") ("") (""))
          ⟨emptyStore, none⟩)
        = liftWrite (fun s => insertOrReplace s ("K") ("a") ("v") ("") ("")) ⟨emptyStore, none⟩
      ∧ rollbackPrepared (liftWrite (fun s => insertOrReplace s ("K") ("a") ("v") ("") (""))
          ⟨emptyStore, none⟩)
        = liftWrite (fun s => insertOrReplace s ("K") ("a") ("v") ("") ("")) ⟨emptyStore, none⟩) :=
  ⟨rfl, c8_transactions_spec ⟨emptyStore, none⟩ rfl
    (fun s => insertOrReplace s ("K") ("a") ("v") ("") (""))⟩

/-! ## Claim C3: getLast, getLessOrEqual, getLess -/

theorem skLt_ne {a b : String} (h : skLt a b = true) : a ≠ b := by
  intro he
  rw [he, skLt_irrefl] at h
  cases h

theorem maxRow_proj {l : List Row} {sk v : String}
    (hmem : ∃ r ∈ l, r.sort_key = sk ∧ r.value = v)
    (hdom : ∀ r ∈ l, skLe r.sort_key sk = true)
    (huniq : ∀ r ∈ l, r.sort_key = sk → r.value = v) :
    ∃ m, maxRow l = some m ∧ m.sort_key = sk ∧ m.value = v := by
  rcases hmem with ⟨r0, hr0, hsk0, _⟩
  cases hm : maxRow l with
  | none =>
    rw [maxRow_eq_none.mp hm] at hr0
    cases hr0
  | some m =>
    have hmmem := maxRow_mem hm
    have h1 : skLt m.sort_key r0.sort_key = false := maxRow_ge hm r0 hr0
    have h2 : skLe m.sort_key sk = true := hdom m hmmem
    rw [hsk0] at h1
    have h3 : skLt sk m.sort_key = false := by
      rcases hv : skLt sk m.sort_key with _ | _
      · rfl
      · rw [skLe, hv] at h2
        cases h2
    have heq : m.sort_key = sk := skLt_antisymm h1 h3
    exact ⟨m, rfl, heq, huniq m hmmem heq⟩

/-- C3: for a key whose stored entries are exactly the three
`(s1,v1), (s2,v2), (s3,v3)` with `s1 < s2 < s3` (in SQLite TEXT order) and
non-empty stored texts: `getLast` returns the entry with the maximum sort key
`s3`; `getLessOrEqual` at `s2` returns `s2`'s entry; `getLess` at `s2`
returns `s1`'s entry; and each query returns null when no entry qualifies —
`getLessOrEqual` below all of the key's sort keys, `getLess` at the least
sort key, and `getLast` on a key with no entries. -/
theorem c3_queries_spec (st : Store) (k : String) (s1 v1 s2 v2 s3 v3 : String)
    (h12 : skLt s1 s2 = true) (h23 : skLt s2 s3 = true)
    (hv1 : v1 ≠ "") (hv2 : v2 ≠ "") (hv3 : v3 ≠ "")
    (hcov : ∀ r ∈ st.rows, r.key = k →
      (r.sort_key, r.value) = (s1, v1) ∨ (r.sort_key, r.value) = (s2, v2)
        ∨ (r.sort_key, r.value) = (s3, v3))
    (he1 : ∃ r ∈ st.rows, r.key = k ∧ r.sort_key = s1 ∧ r.value = v1)
    (he2 : ∃ r ∈ st.rows, r.key = k ∧ r.sort_key = s2 ∧ r.value = v2)
    (he3 : ∃ r ∈ st.rows, r.key = k ∧ r.sort_key = s3 ∧ r.value = v3) :
    getLast st k = some (s3, v3)
    ∧ getLessOrEqual st k s2 = some (s2, v2)
    ∧ getLess st k s2 = some (s1, v1)
    ∧ (∀ q, skLt q s1 = true → getLessOrEqual st k q = none)
    ∧ getLess st k s1 = none
    ∧ (∀ k2, (∀ r ∈ st.rows, r.key ≠ k2) → getLast st k2 = none) := by
  have h13 : skLt s1 s3 = true := skLt_trans h12 h23
  have hcov2 : ∀ r ∈ entriesFor st k,
      (r.sort_key, r.value) = (s1, v1) ∨ (r.sort_key, r.value) = (s2, v2)
        ∨ (r.sort_key, r.value) = (s3, v3) := by
    intro r hr
    rcases mem_entriesFor.mp hr with ⟨hmem, hk⟩
    exact hcov r hmem hk
  refine ⟨?_, ?_, ?_, ?_, ?_, ?_⟩
  · -- getLast
    have hproj : ∃ m, maxRow (entriesFor st k) = some m ∧ m.sort_key = s3 ∧ m.value = v3 := by
      apply maxRow_proj
      · rcases he3 with ⟨r, hr, hk, hsk, hv⟩
        exact ⟨r, mem_entriesFor.mpr ⟨hr, hk⟩, hsk, hv⟩
      · intro r hr
        rcases hcov2 r hr with hp | hp | hp <;>
          rcases Prod.mk.injEq .. ▸ hp with ⟨ha, hb⟩
        · rw [ha]
          exact skLe_of_skLt h13
        · rw [ha]
          exact skLe_of_skLt h23
        · rw [ha]
          exact skLe_refl s3
      · intro r hr hsk
        rcases hcov2 r hr with hp | hp | hp <;>
          rcases Prod.mk.injEq .. ▸ hp with ⟨ha, hb⟩
        · rw [ha] at hsk
          exact absurd hsk (skLt_ne h13)
        · rw [ha] at hsk
          exact absurd hsk (skLt_ne h23)
        · exact hb
    rcases hproj with ⟨m, hm, hsk, hv⟩
    have hbeq : (m.value == "") = false := by
      rw [hv]
      simp [hv3]
    simp only [getLast, hm, hbeq]
    simp [hsk, hv]
  · -- getLessOrEqual at s2
    have hproj : ∃ m, maxRow ((entriesFor st k).filter (fun r => skLe r.sort_key s2)) = some m
        ∧ m.sort_key = s2 ∧ m.value = v2 := by
      apply maxRow_proj
      · rcases he2 with ⟨r, hr, hk, hsk, hv⟩
        refine ⟨r, List.mem_filter.mpr ⟨mem_entriesFor.mpr ⟨hr, hk⟩, ?_⟩, hsk, hv⟩
        rw [hsk]
        exact skLe_refl s2
      · intro r hr
        exact (List.mem_filter.mp hr).2
      · intro r hr hsk
        rcases hcov2 r (List.mem_filter.mp hr).1 with hp | hp | hp <;>
          rcases Prod.mk.injEq .. ▸ hp with ⟨ha, hb⟩
        · rw [ha] at hsk
          exact absurd hsk (skLt_ne h12)
        · exact hb
        · rw [ha] at hsk
          exact absurd hsk.symm (skLt_ne h23)
    rcases hproj with ⟨m, hm, hsk, hv⟩
    have hbeq : (m.value == "") = false := by
      rw [hv]
      simp [hv2]
    simp only [getLessOrEqual, hm, hbeq]
    simp [hsk, hv]
  · -- getLess at s2
    have hproj : ∃ m, maxRow ((entriesFor st k).filter (fun r => skLt r.sort_key s2)) = some m
        ∧ m.sort_key = s1 ∧ m.value = v1 := by
      apply maxRow_proj
      · rcases he1 with ⟨r, hr, hk, hsk, hv⟩
        refine ⟨r, List.mem_filter.mpr ⟨mem_entriesFor.mpr ⟨hr, hk⟩, ?_⟩, hsk, hv⟩
        rw [hsk]
        exact h12
      · intro r hr
        rcases List.mem_filter.mp hr with ⟨hr2, hlt⟩
        rcases hcov2 r hr2 with hp | hp | hp <;>
          rcases Prod.mk.injEq .. ▸ hp with ⟨ha, hb⟩
        · rw [ha]
          exact skLe_refl s1
        · rw [ha] at hlt
          rw [skLt_irrefl] at hlt
          cases hlt
        · rw [ha] at hlt
          rw [skLt_asymm h23] at hlt
          cases hlt
      · intro r hr hsk
        rcases hcov2 r (List.mem_filter.mp hr).1 with hp | hp | hp <;>
          rcases Prod.mk.injEq .. ▸ hp with ⟨ha, hb⟩
        · exact hb
        · rw [ha] at hsk
          exact absurd hsk.symm (skLt_ne h12)
        · rw [ha] at hsk
          exact absurd hsk.symm (skLt_ne h13)
    rcases hproj with ⟨m, hm, hsk, hv⟩
    have hbeq : (m.value == "") = false := by
      rw [hv]
      simp [hv1]
    simp only [getLess, hm, hbeq]
    simp [hsk, hv]
  · -- getLessOrEqual below all sort keys
    intro q hq
    cases hm : maxRow ((entriesFor st k).filter (fun r => skLe r.sort_key q)) with
    | none => simp [getLessOrEqual, hm]
    | some m =>
      exfalso
      have hmmem := maxRow_mem hm
      rcases List.mem_filter.mp hmmem with ⟨hr2, hle⟩
      have hlt : skLt q m.sort_key = true → False := by
        intro hv
        rw [skLe, hv] at hle
        cases hle
      rcases hcov2 m hr2 with hp | hp | hp <;>
        rcases Prod.mk.injEq .. ▸ hp with ⟨ha, hb⟩
      · exact hlt (ha ▸ hq)
      · exact hlt (ha ▸ skLt_trans hq h12)
      · exact hlt (ha ▸ skLt_trans (skLt_trans hq h12) h23)
  · -- getLess at the least sort key
    cases hm : maxRow ((entriesFor st k).filter (fun r => skLt r.sort_key s1)) with
    | none => simp [getLess, hm]
    | some m =>
      exfalso
      have hmmem := maxRow_mem hm
      rcases List.mem_filter.mp hmmem with ⟨hr2, hlt⟩
      rcases hcov2 m hr2 with hp | hp | hp <;>
        rcases Prod.mk.injEq .. ▸ hp with ⟨ha, hb⟩
      · rw [ha, skLt_irrefl] at hlt
        cases hlt
      · rw [ha, skLt_asymm h12] at hlt
        cases hlt
      · rw [ha, skLt_asymm h13] at hlt
        cases hlt
  · -- getLast on a key with no entries
    intro k2 hnone
    have hnil : entriesFor st k2 = [] := by
      cases he : entriesFor st k2 with
      | nil => rfl
      | cons r t =>
        exfalso
        have hr : r ∈ entriesFor st k2 := by
          rw [he]
          exact List.mem_cons_self r t
        rcases mem_entriesFor.mp hr with ⟨hmem, hk⟩
        exact hnone r hmem hk
    simp [getLast, hnil, maxRow]

/-- C3 witness: the three queries on a concrete store holding sort keys
`a < b < c` for key `K` (plus an unrelated key), with every hypothesis
checked by evaluation. -/
theorem c3_queries_spec_witness :
    (skLt ("a") ("b") = true ∧ skLt ("b") ("c") = true)
    ∧ (getLast ⟨[⟨1, ("K"), ("a"), ("1"), (""), ("")⟩,
          ⟨2, ("K"), ("b"), ("2"), (""), ("")⟩,
          ⟨3, ("K"), ("c"), ("3"), (""), ("")⟩,
          ⟨4, ("Z"), ("z"), ("9"), (""), ("")⟩], 5⟩ ("K") = some (("c"), ("3"))
      ∧ getLessOrEqual ⟨[⟨1, ("K"), ("a"), ("1"), (""), ("")⟩,
          ⟨2, ("K"), ("b"), ("2"), (""), ("")⟩,
          ⟨3, ("K"), ("c"), ("3"), (""), ("")⟩,
          ⟨4, ("Z"), ("z"), ("9"), (""), ("")⟩], 5⟩ ("K") ("b") = some (("b"), ("2"))
      ∧ getLess ⟨[⟨1, ("K"), ("a"), ("1"), (""), ("")⟩,
          ⟨2, ("K"), ("b"), ("2"), (""), ("")⟩,
          ⟨3, ("K"), ("c"), ("3"), (""), ("")⟩,
          ⟨4, ("Z"), ("z"), ("9"), (""), ("")⟩], 5⟩ ("K") ("b") = some (("a"), ("1"))
      ∧ (∀ q, skLt q ("a") = true → getLessOrEqual ⟨[⟨1, ("K"), ("a"), ("1"), (""), ("")⟩,
          ⟨2, ("K"), ("b"), ("2"), (""), ("")⟩,
          ⟨3, ("K"), ("c"), ("3"), (""), ("")⟩,
          ⟨4, ("Z"), ("z"), ("9"), (""), ("")⟩], 5⟩ ("K") q = none)
      ∧ getLess ⟨[⟨1, ("K"), ("a"), ("1"), (""), ("")⟩,
          ⟨2, ("K"), ("b"), ("2"), (""), ("")⟩,
          ⟨3, ("K"), ("c"), ("3"), (""), ("")⟩,
          ⟨4, ("Z"), ("z"), ("9"), (""), ("")⟩], 5⟩ ("K") ("a") = none
      ∧ (∀ k2, (∀ r ∈ (⟨[⟨1, ("K"), ("a"), ("1"), (""), ("")⟩,
          ⟨2, ("K"), ("b"), ("2"), (""), ("")⟩,
          ⟨3, ("K"), ("c"), ("3"), (""), ("")⟩,
          ⟨4, ("Z"), ("z"), ("9"), (""), ("")⟩], 5⟩ : Store).rows, r.key ≠ k2) →
        getLast ⟨[⟨1, ("K"), ("a"), ("1"), (""), ("")⟩,
          ⟨2, ("K"), ("b"), ("2"), (""), ("")⟩,
          ⟨3, ("K"), ("c"), ("3"), (""), ("")⟩,
          ⟨4, ("Z"), ("z"), ("9"), (""), ("")⟩], 5⟩ k2 = none)) :=
  ⟨⟨by decide, by decide⟩,
   c3_queries_spec ⟨[⟨1, ("K"), ("a"), ("1"), (""), ("")⟩,
      ⟨2, ("K"), ("b"), ("2"), (""), ("")⟩,
      ⟨3, ("K"), ("c"), ("3"), (""), ("")⟩,
      ⟨4, ("Z"), ("z"), ("9"), (""), ("")⟩], 5⟩ ("K") ("a") ("1") ("b") ("2") ("c") ("3")
     (by decide) (by decide) (by decide) (by decide) (by decide)
     (by decide) (by decide) (by decide) (by decide)⟩

/-! ## Claim C1: the per-key cap after put -/

theorem length_filter_sortkey (l : List Row) (p : String → Bool) :
    (l.filter (fun r => p r.sort_key)).length = ((l.map Row.sort_key).filter p).length := by
  rw [← List.countP_eq_length_filter, ← List.countP_eq_length_filter, List.countP_map]
  rfl

theorem survivors_length {st : Store} {k : String}
    (hnd : ((entriesFor st k).map Row.sort_key).Nodup) (c : Nat) :
    ((entriesFor st k).filter
        (fun r => decide (cntGt ((entriesFor st k).map Row.sort_key) r.sort_key + 1 < c + 1))).length
      = min (entriesFor st k).length c := by
  have key := length_filter_rank_lt hnd c
  rw [← List.countP_eq_length_filter] at key ⊢
  rw [List.countP_map, List.length_map] at key
  rw [← key]
  apply List.countP_congr
  intro r _
  simp only [Function.comp_apply, decide_eq_true_eq]
  omega

/-- C1: for every well-formed store (the UNIQUE constraint holds) and every
positive `maxEntriesPerContract`, after `put(K, sortKey, value)` the key `K`
has at most `maxEntriesPerContract` entries, and an entry carrying the
written key, sort key and serialized value is present. -/
theorem c1_put_cap (st : Store) (hwf : WF st) (maxE : Nat) (hmax : 1 ≤ maxE)
    (genHash : String → String) (k sk : String) (v : JVal) :
    (entriesFor (put maxE genHash st k sk v) k).length ≤ maxE
    ∧ ∃ r ∈ (put maxE genHash st k sk v).rows,
        r.key = k ∧ r.sort_key = sk ∧ r.value = safeStringify v := by
  constructor
  · rw [put_rows]
    rw [List.length_append]
    have hc : maxE = (maxE - 1) + 1 := by omega
    have hlen : ((entriesFor st k).filter
        (fun r => decide (cntGt ((entriesFor st k).map Row.sort_key) r.sort_key + 1 < maxE))).length
        = min (entriesFor st k).length (maxE - 1) := by
      rw [hc]
      exact survivors_length (WF_sortKeys_nodup hwf k) (maxE - 1)
    have hsub : (((entriesFor st k).filter
          (fun r => decide (cntGt ((entriesFor st k).map Row.sort_key) r.sort_key + 1 < maxE))).filter
        (fun r => !(r.sort_key == sk))).length
        ≤ ((entriesFor st k).filter
          (fun r => decide (cntGt ((entriesFor st k).map Row.sort_key) r.sort_key + 1 < maxE))).length :=
      List.Sublist.length_le (List.filter_sublist _)
    simp only [List.length_cons, List.length_nil]
    omega
  · refine ⟨⟨st.nextId, k, sk, safeStringify v, genHash (safeStringify v), ""⟩, ?_, rfl, rfl, rfl⟩
    rw [put, insertOrReplace]
    apply List.mem_append_right
    rw [removeOldest_nextId]
    exact List.mem_cons_self _ _

/-- C1 witness: a put on a concrete well-formed two-row store with
`maxEntriesPerContract = 2`. -/
theorem c1_put_cap_witness :
    (WF ⟨[⟨1, ("K"), ("a"), ("1"), (""), ("")⟩,
          ⟨2, ("K"), ("b"), ("2"), (""), ("")⟩], 3⟩ ∧ 1 ≤ 2)
    ∧ ((entriesFor (put 2 (fun _ => ("")) ⟨[⟨1, ("K"), ("a"), ("1"), (""), ("")⟩,
          ⟨2, ("K"), ("b"), ("2"), (""), ("")⟩], 3⟩ ("K") ("c") JVal.jnull) ("K")).length ≤ 2
      ∧ ∃ r ∈ (put 2 (fun _ => ("")) ⟨[⟨1, ("K"), ("a"), ("1"), (""), ("")⟩,
          ⟨2, ("K"), ("b"), ("2"), (""), ("")⟩], 3⟩ ("K") ("c") JVal.jnull).rows,
          r.key = ("K") ∧ r.sort_key = ("c") ∧ r.value = safeStringify JVal.jnull) :=
  ⟨⟨by decide, by decide⟩,
   c1_put_cap ⟨[⟨1, ("K"), ("a"), ("1"), (""), ("")⟩,
      ⟨2, ("K"), ("b"), ("2"), (""), ("")⟩], 3⟩ (by decide) 2 (by decide)
     (fun _ => ("")) ("K") ("c") JVal.jnull⟩

/-! ## Claim C4: the global prune sweep -/

theorem sum_map_const_nat (l : List α) (c : Nat) : (l.map (fun _ => c)).sum = l.length * c := by
  induction l with
  | nil => simp
  | cons a t ih =>
    simp only [List.map_cons, List.sum_cons, List.length_cons, ih]
    ring

theorem prune_store_rows (S : Int) (st : Store) :
    (prune S st).1.rows = st.rows.filter
      (fun r => decide (rankIn st r.key r.sort_key ≤ (if S ≤ 0 then 1 else S.toNat))) := rfl

theorem prune_entriesFor (S : Int) (st : Store) (k : String) :
    entriesFor (prune S st).1 k
      = (entriesFor st k).filter
          (fun r => decide (cntGt ((entriesFor st k).map Row.sort_key) r.sort_key + 1
            ≤ (if S ≤ 0 then 1 else S.toNat))) := by
  cases st with
  | mk rows n =>
    have hst : (prune S ⟨rows, n⟩).1
        = ⟨rows.filter (fun r => decide (rankIn ⟨rows, n⟩ r.key r.sort_key
            ≤ (if S ≤ 0 then 1 else S.toNat))), n⟩ := rfl
    have h1 : entriesFor (prune S ⟨rows, n⟩).1 k
        = (entriesFor ⟨rows, n⟩ k).filter
            (fun r => decide (rankIn ⟨rows, n⟩ r.key r.sort_key ≤ (if S ≤ 0 then 1 else S.toNat))) := by
      rw [hst]
      exact entriesFor_filter_comm rows n n _ k
    rw [h1]
    apply List.filter_congr
    intro r hr
    have hk : r.key = k := (mem_entriesFor.mp hr).2
    rw [hk, rankIn_eq]

theorem prune_entriesFor_length (S : Int) (st : Store) (hwf : WF st) (k : String)
    (hS : 0 < S) :
    (entriesFor (prune S st).1 k).length = min (entriesFor st k).length S.toNat := by
  have hcl : ¬ (S ≤ 0) := by omega
  have hpos : S.toNat = (S.toNat - 1) + 1 := by omega
  rw [prune_entriesFor]
  have hcong : (entriesFor st k).filter
        (fun r => decide (cntGt ((entriesFor st k).map Row.sort_key) r.sort_key + 1
          ≤ (if S ≤ 0 then 1 else S.toNat)))
      = (entriesFor st k).filter
        (fun r => decide (cntGt ((entriesFor st k).map Row.sort_key) r.sort_key + 1
          < (S.toNat - 1) + 1 + 1)) := by
    apply List.filter_congr
    intro r _
    simp only [hcl, if_false]
    rw [decide_eq_decide]
    omega
  rw [hcong]
  rw [survivors_length (WF_sortKeys_nodup hwf k) ((S.toNat - 1) + 1)]
  omega

/-- C4: with a well-formed store holding `K` distinct keys with `M` entries
each and `0 < S < M`, `prune(S)` keeps, independently for each key, exactly
the `S` entries with the greatest sort keys (every surviving row's sort key
is strictly above every deleted row's sort key of the same key), and reports
`entriesBefore = K*M` and `entriesAfter = K*S`. -/
theorem c4_prune_retention (st : Store) (hwf : WF st) (keys : List String) (M K : Nat)
    (S : Int) (hknd : keys.Nodup) (hK : keys.length = K)
    (hcov : ∀ r ∈ st.rows, r.key ∈ keys)
    (hM : ∀ k2 ∈ keys, (entriesFor st k2).length = M)
    (hS : 0 < S) (hSM : S.toNat < M) :
    (prune S st).2.entriesBefore = K * M
    ∧ (prune S st).2.entriesAfter = K * S.toNat
    ∧ (∀ k2 ∈ keys, (entriesFor (prune S st).1 k2).length = S.toNat)
    ∧ (∀ r ∈ (prune S st).1.rows, ∀ r2 ∈ st.rows, r2.key = r.key →
        r2 ∉ (prune S st).1.rows → skLt r2.sort_key r.sort_key = true) := by
  have hcl : ¬ (S ≤ 0) := by omega
  have hlenbefore : st.rows.length = K * M := by
    rw [rows_length_eq_sum keys st.rows hknd hcov]
    have : keys.map (fun k => (st.rows.filter (fun r => r.key == k)).length)
        = keys.map (fun _ => M) := by
      apply List.map_congr_left
      intro k2 hk2
      exact hM k2 hk2
    rw [this, sum_map_const_nat, hK]
  have hperkey : ∀ k2 ∈ keys, (entriesFor (prune S st).1 k2).length = S.toNat := by
    intro k2 hk2
    rw [prune_entriesFor_length S st hwf k2 hS, hM k2 hk2]
    omega
  have hcov2 : ∀ r ∈ (prune S st).1.rows, r.key ∈ keys := by
    intro r hr
    rw [prune_store_rows] at hr
    exact hcov r (List.mem_filter.mp hr).1
  have hlenafter : (prune S st).1.rows.length = K * S.toNat := by
    rw [rows_length_eq_sum keys (prune S st).1.rows hknd hcov2]
    have : keys.map (fun k => ((prune S st).1.rows.filter (fun r => r.key == k)).length)
        = keys.map (fun _ => S.toNat) := by
      apply List.map_congr_left
      intro k2 hk2
      exact hperkey k2 hk2
    rw [this, sum_map_const_nat, hK]
  have hsubl : (prune S st).1.rows.length ≤ st.rows.length := by
    rw [prune_store_rows]
    exact List.Sublist.length_le (List.filter_sublist _)
  refine ⟨?_, ?_, hperkey, ?_⟩
  · show st.rows.length = K * M
    exact hlenbefore
  · show st.rows.length - (st.rows.length - (prune S st).1.rows.length) = K * S.toNat
    omega
  · intro r hr r2 hr2 hkey hdrop
    rw [prune_store_rows] at hr
    rcases List.mem_filter.mp hr with ⟨hrmem, hrkeep⟩
    have hr2drop : decide (rankIn st r2.key r2.sort_key ≤ (if S ≤ 0 then 1 else S.toNat)) = false := by
      rcases hv : decide (rankIn st r2.key r2.sort_key ≤ (if S ≤ 0 then 1 else S.toNat)) with _ | _
      · rfl
      · exfalso
        apply hdrop
        rw [prune_store_rows]
        exact List.mem_filter.mpr ⟨hr2, hv⟩
    have hkeep := of_decide_eq_true hrkeep
    have hdrop2 : ¬ (rankIn st r2.key r2.sort_key ≤ (if S ≤ 0 then 1 else S.toNat)) := by
      intro hcontra
      rw [decide_eq_true hcontra] at hr2drop
      cases hr2drop
    rw [hkey] at hdrop2
    rw [rankIn_eq] at hkeep hdrop2
    have hmem2 : r2.sort_key ∈ (entriesFor st r.key).map Row.sort_key := by
      apply List.mem_map.mpr
      exact ⟨r2, mem_entriesFor.mpr ⟨hr2, hkey⟩, rfl⟩
    rcases hv : skLt r2.sort_key r.sort_key with _ | _
    · exfalso
      rcases hw : skLt r.sort_key r2.sort_key with _ | _
      · have heq : r.sort_key = r2.sort_key := skLt_antisymm hw hv
        rw [heq] at hkeep
        omega
      · have := cntGt_strict hmem2 hw
        omega
    · rfl

/-- C4 witness: two keys with three entries each, pruned to `S = 2`. -/
theorem c4_prune_retention_witness :
    (WF ⟨[⟨1, ("A"), ("a"), ("1"), (""), ("")⟩, ⟨2, ("A"), ("b"), ("2"), (""), ("")⟩,
          ⟨3, ("A"), ("c"), ("3"), (""), ("")⟩, ⟨4, ("B"), ("a"), ("4"), (""), ("")⟩,
          ⟨5, ("B"), ("b"), ("5"), (""), ("")⟩, ⟨6, ("B"), ("c"), ("6"), (""), ("")⟩], 7⟩
      ∧ (0 : Int) < 2 ∧ (2 : Int).toNat < 3)
    ∧ ((prune 2 ⟨[⟨1, ("A"), ("a"), ("1"), (""), ("")⟩, ⟨2, ("A"), ("b"), ("2"), (""), ("")⟩,
          ⟨3, ("A"), ("c"), ("3"), (""), ("")⟩, ⟨4, ("B"), ("a"), ("4"), (""), ("")⟩,
          ⟨5, ("B"), ("b"), ("5"), (""), ("")⟩, ⟨6, ("B"), ("c"), ("6"), (""), ("")⟩], 7⟩).2.entriesBefore
        = 2 * 3
      ∧ (prune 2 ⟨[⟨1, ("A"), ("a"), ("1"), (""), ("")⟩, ⟨2, ("A"), ("b"), ("2"), (""), ("")⟩,
          ⟨3, ("A"), ("c"), ("3"), (""), ("")⟩, ⟨4, ("B"), ("a"), ("4"), (""), ("")⟩,
          ⟨5, ("B"), ("b"), ("5"), (""), ("")⟩, ⟨6, ("B"), ("c"), ("6"), (""), ("")⟩], 7⟩).2.entriesAfter
        = 2 * (2 : Int).toNat
      ∧ (∀ k2 ∈ [("A"), ("B")],
          (entriesFor (prune 2 ⟨[⟨1, ("A"), ("a"), ("1"), (""), ("")⟩, ⟨2, ("A"), ("b"), ("2"), (""), ("")⟩,
            ⟨3, ("A"), ("c"), ("3"), (""), ("")⟩, ⟨4, ("B"), ("a"), ("4"), (""), ("")⟩,
            ⟨5, ("B"), ("b"), ("5"), (""), ("")⟩, ⟨6, ("B"), ("c"), ("6"), (""), ("")⟩], 7⟩).1 k2).length
          = (2 : Int).toNat)
      ∧ (∀ r ∈ (prune 2 ⟨[⟨1, ("A"), ("a"), ("1"), (""), ("")⟩, ⟨2, ("A"), ("b"), ("2"), (""), ("")⟩,
            ⟨3, ("A"), ("c"), ("3"), (""), ("")⟩, ⟨4, ("B"), ("a"), ("4"), (""), ("")⟩,
            ⟨5, ("B"), ("b"), ("5"), (""), ("")⟩, ⟨6, ("B"), ("c"), ("6"), (""), ("")⟩], 7⟩).1.rows,
          ∀ r2 ∈ (⟨[⟨1, ("A"), ("a"), ("1"), (""), ("")⟩, ⟨2, ("A"), ("b"), ("2"), (""), ("")⟩,
            ⟨3, ("A"), ("c"), ("3"), (""), ("")⟩, ⟨4, ("B"), ("a"), ("4"), (""), ("")⟩,
            ⟨5, ("B"), ("b"), ("5"), (""), ("")⟩, ⟨6, ("B"), ("c"), ("6"), (""), ("")⟩], 7⟩ : Store).rows,
            r2.key = r.key →
            r2 ∉ (prune 2 ⟨[⟨1, ("A"), ("a"), ("1"), (""), ("")⟩, ⟨2, ("A"), ("b"), ("2"), (""), ("")⟩,
              ⟨3, ("A"), ("c"), ("3"), (""), ("")⟩, ⟨4, ("B"), ("a"), ("4"), (""), ("")⟩,
              ⟨5, ("B"), ("b"), ("5"), (""), ("")⟩, ⟨6, ("B"), ("c"), ("6"), (""), ("")⟩], 7⟩).1.rows →
            skLt r2.sort_key r.sort_key = true)) :=
  ⟨⟨by decide, by decide, by decide⟩,
   c4_prune_retention ⟨[⟨1, ("A"), ("a"), ("1"), (""), ("")⟩, ⟨2, ("A"), ("b"), ("2"), (""), ("")⟩,
      ⟨3, ("A"), ("c"), ("3"), (""), ("")⟩, ⟨4, ("B"), ("a"), ("4"), (""), ("")⟩,
      ⟨5, ("B"), ("b"), ("5"), (""), ("")⟩, ⟨6, ("B"), ("c"), ("6"), (""), ("")⟩], 7⟩
     (by decide) [("A"), ("B")] 3 2 2 (by decide) (by decide) (by decide) (by decide)
     (by decide) (by decide)⟩

/-! ## Claim C2: repeated puts against one key -/

theorem putMany_nil (maxE : Nat) (genHash : String → String) (st : Store) (k : String) :
    putMany maxE genHash st k [] = st := rfl

theorem putMany_cons (maxE : Nat) (genHash : String → String) (st : Store) (k : String)
    (p : String × JVal) (rest : List (String × JVal)) :
    putMany maxE genHash st k (p :: rest)
      = putMany maxE genHash (put maxE genHash st k p.1 p.2) k rest := rfl

theorem put_step (maxE : Nat) (genHash : String → String) (st : Store) (k s : String)
    (v : JVal) (hfresh : s ∉ (entriesFor st k).map Row.sort_key) :
    entriesFor (put maxE genHash st k s v) k
      = (entriesFor st k).filter
          (fun r => decide (cntGt ((entriesFor st k).map Row.sort_key) r.sort_key + 1 < maxE))
        ++ [⟨st.nextId, k, s, safeStringify v, genHash (safeStringify v), ""⟩] := by
  rw [put_rows]
  congr 1
  apply List.filter_eq_self.mpr
  intro r hr
  have hrment : r ∈ entriesFor st k := (List.mem_filter.mp hr).1
  have hne : r.sort_key ≠ s := by
    intro he
    exact hfresh (List.mem_map.mpr ⟨r, hrment, he⟩)
  simp [hne]

theorem rank_pred_shift (m : List String) (maxE : Nat) (l : List Row) :
    l.filter (fun r => decide (cntGt m r.sort_key + 1 < maxE))
      = l.filter (fun r => decide (cntGt m r.sort_key < maxE - 1)) := by
  apply List.filter_congr
  intro r _
  rw [decide_eq_decide]
  omega

theorem sorted_filter_rank_rows (S : Nat) :
    ∀ (l : List Row), (l.map Row.sort_key).Pairwise (fun p q => skLt p q = true) →
      l.filter (fun r => decide (cntGt (l.map Row.sort_key) r.sort_key < S))
        = l.drop (l.length - S) := by
  intro l
  induction l with
  | nil => simp
  | cons a t ih =>
    intro hp
    rw [List.map_cons] at hp
    rcases List.pairwise_cons.mp hp with ⟨ha, ht⟩
    have ha2 : ∀ x ∈ t.map Row.sort_key, skLt a.sort_key x = true := ha
    have hhead : cntGt ((a :: t).map Row.sort_key) a.sort_key = t.length := by
      rw [List.map_cons]
      have := cntGt_head_eq ha2
      rw [this, List.length_map]
    have htail : ∀ x ∈ t,
        (decide (cntGt ((a :: t).map Row.sort_key) x.sort_key < S))
          = (decide (cntGt (t.map Row.sort_key) x.sort_key < S)) := by
      intro x hx
      rw [List.map_cons, cntGt_tail (ha2 x.sort_key (List.mem_map.mpr ⟨x, hx, rfl⟩))]
    rw [List.filter_cons, hhead, List.filter_congr htail, ih ht]
    by_cases hS : t.length < S
    · have h1 : t.length - S = 0 := by omega
      have h2 : t.length + 1 - S = 0 := by omega
      simp [hS, h1, h2]
    · have h2 : t.length + 1 - S = (t.length - S) + 1 := by omega
      simp [hS, h2]

theorem putMany_count (maxE : Nat) (hN : 1 ≤ maxE) (genHash : String → String) (k : String) :
    ∀ (ps : List (String × JVal)) (st : Store),
      (ps.map Prod.fst).Nodup →
      (∀ p ∈ ps, p.1 ∉ (entriesFor st k).map Row.sort_key) →
      ((entriesFor st k).map Row.sort_key).Nodup →
      (entriesFor st k).length ≤ maxE →
      (entriesFor (putMany maxE genHash st k ps) k).length
        = min ((entriesFor st k).length + ps.length) maxE := by
  intro ps
  induction ps with
  | nil =>
    intro st _ _ _ hle
    rw [putMany_nil]
    simp only [List.length_nil]
    omega
  | cons p rest ih =>
    intro st hnd hdisj hsknd hle
    have hfresh : p.1 ∉ (entriesFor st k).map Row.sort_key :=
      hdisj p (List.mem_cons_self p rest)
    have hstep := put_step maxE genHash st k p.1 p.2 hfresh
    have hcap : maxE = (maxE - 1) + 1 := by omega
    have hsurvlen : ((entriesFor st k).filter
        (fun r => decide (cntGt ((entriesFor st k).map Row.sort_key) r.sort_key + 1 < maxE))).length
        = min (entriesFor st k).length (maxE - 1) := by
      rw [hcap]
      exact survivors_length hsknd (maxE - 1)
    have hlen2 : (entriesFor (put maxE genHash st k p.1 p.2) k).length
        = min (entriesFor st k).length (maxE - 1) + 1 := by
      rw [hstep, List.length_append, hsurvlen]
      simp
    have hskmap : (entriesFor (put maxE genHash st k p.1 p.2) k).map Row.sort_key
        = ((entriesFor st k).filter
            (fun r => decide (cntGt ((entriesFor st k).map Row.sort_key) r.sort_key + 1 < maxE))).map
              Row.sort_key ++ [p.1] := by
      rw [hstep, List.map_append]
      rfl
    have hsurvsub : List.Sublist
        (((entriesFor st k).filter
          (fun r => decide (cntGt ((entriesFor st k).map Row.sort_key) r.sort_key + 1 < maxE))).map
            Row.sort_key)
        ((entriesFor st k).map Row.sort_key) :=
      (List.filter_sublist _).map _
    have hsknd2 : ((entriesFor (put maxE genHash st k p.1 p.2) k).map Row.sort_key).Nodup := by
      rw [hskmap]
      apply List.nodup_append.mpr
      refine ⟨List.Nodup.sublist hsurvsub hsknd, by simp, ?_⟩
      intro x hx
      have hxm := hsurvsub.mem hx
      simp only [List.mem_singleton]
      intro he
      rw [he] at hxm
      exact hfresh hxm
    have hdisj2 : ∀ q ∈ rest, q.1 ∉ (entriesFor (put maxE genHash st k p.1 p.2) k).map Row.sort_key := by
      intro q hq
      rw [hskmap]
      intro hmem
      rcases List.mem_append.mp hmem with hin | hin
      · exact hdisj q (List.mem_cons_of_mem p hq) (hsurvsub.mem hin)
      · have hnd3 := hnd
        rw [List.map_cons] at hnd3
        rcases List.nodup_cons.mp hnd3 with ⟨hp1, _⟩
        have he : q.1 = p.1 := List.mem_singleton.mp hin
        apply hp1
        rw [← he]
        exact List.mem_map.mpr ⟨q, hq, rfl⟩
    have hle2 : (entriesFor (put maxE genHash st k p.1 p.2) k).length ≤ maxE := by
      rw [hlen2]
      omega
    have hnd2 : (rest.map Prod.fst).Nodup := by
      rw [List.map_cons] at hnd
      exact (List.nodup_cons.mp hnd).2
    rw [putMany_cons, ih _ hnd2 hdisj2 hsknd2 hle2, hlen2]
    simp only [List.length_cons]
    omega

theorem putMany_sorted (maxE : Nat) (hN : 1 ≤ maxE) (genHash : String → String) (k : String) :
    ∀ (ps : List (String × JVal)) (st : Store) (done : List (String × String)),
      (entriesFor st k).map (fun r => (r.sort_key, r.value)) = done.drop (done.length - maxE) →
      ((entriesFor st k).map Row.sort_key).Pairwise (fun a b => skLt a b = true) →
      (∀ p ∈ ps, ∀ x ∈ (entriesFor st k).map Row.sort_key, skLt x p.1 = true) →
      (ps.map Prod.fst).Pairwise (fun a b => skLt a b = true) →
      (entriesFor (putMany maxE genHash st k ps) k).map (fun r => (r.sort_key, r.value))
        = (done ++ ps.map (fun p => (p.1, safeStringify p.2))).drop
            ((done.length + ps.length) - maxE) := by
  intro ps
  induction ps with
  | nil =>
    intro st done hinv _ _ _
    rw [putMany_nil]
    simp [hinv]
  | cons p rest ih =>
    intro st done hinv hsorted hall hps
    have hfresh : p.1 ∉ (entriesFor st k).map Row.sort_key := by
      intro hmem
      have := hall p (List.mem_cons_self p rest) p.1 hmem
      rw [skLt_irrefl] at this
      cases this
    have hc : (entriesFor st k).length = done.length - (done.length - maxE) := by
      have hl := congrArg List.length hinv
      rw [List.length_map, List.length_drop] at hl
      exact hl
    have hstep : entriesFor (put maxE genHash st k p.1 p.2) k
        = (entriesFor st k).drop ((entriesFor st k).length - (maxE - 1))
          ++ [⟨st.nextId, k, p.1, safeStringify p.2, genHash (safeStringify p.2), ""⟩] := by
      rw [put_step maxE genHash st k p.1 p.2 hfresh, rank_pred_shift,
        sorted_filter_rank_rows (maxE - 1) _ hsorted]
    have harith : (done.length - maxE) + ((entriesFor st k).length - (maxE - 1))
        = (done.length + 1) - maxE := by
      omega
    have hproj2 : (entriesFor (put maxE genHash st k p.1 p.2) k).map (fun r => (r.sort_key, r.value))
        = (done ++ [(p.1, safeStringify p.2)]).drop
            ((done ++ [(p.1, safeStringify p.2)]).length - maxE) := by
      have hlen1 : (done ++ [(p.1, safeStringify p.2)]).length = done.length + 1 := by simp
      rw [hlen1, hstep, List.map_append, List.map_drop, hinv, List.drop_drop]
      have hle : (done.length + 1) - maxE ≤ done.length := by omega
      rw [harith, List.drop_append_of_le_length hle]
      rfl
    have hskmap2 : (entriesFor (put maxE genHash st k p.1 p.2) k).map Row.sort_key
        = ((entriesFor st k).map Row.sort_key).drop
            ((entriesFor st k).length - (maxE - 1)) ++ [p.1] := by
      rw [hstep, List.map_append, List.map_drop]
      rfl
    have hsorted2 : ((entriesFor (put maxE genHash st k p.1 p.2) k).map Row.sort_key).Pairwise
        (fun a b => skLt a b = true) := by
      rw [hskmap2]
      apply List.pairwise_append.mpr
      refine ⟨List.Pairwise.sublist (List.drop_sublist _ _) hsorted, by simp, ?_⟩
      intro x hx y hy
      rcases List.mem_singleton.mp hy with rfl
      exact hall p (List.mem_cons_self p rest) x ((List.drop_sublist _ _).mem hx)
    have hall2 : ∀ q ∈ rest, ∀ x ∈ (entriesFor (put maxE genHash st k p.1 p.2) k).map Row.sort_key,
        skLt x q.1 = true := by
      intro q hq x hx
      have hpq : skLt p.1 q.1 = true := by
        rw [List.map_cons] at hps
        exact (List.pairwise_cons.mp hps).1 q.1 (List.mem_map.mpr ⟨q, hq, rfl⟩)
      rw [hskmap2] at hx
      rcases List.mem_append.mp hx with hin | hin
      · exact skLt_trans (hall p (List.mem_cons_self p rest) x ((List.drop_sublist _ _).mem hin)) hpq
      · rcases List.mem_singleton.mp hin with rfl
        exact hpq
    have hps2 : (rest.map Prod.fst).Pairwise (fun a b => skLt a b = true) := by
      rw [List.map_cons] at hps
      exact (List.pairwise_cons.mp hps).2
    rw [putMany_cons,
      ih (put maxE genHash st k p.1 p.2) (done ++ [(p.1, safeStringify p.2)]) hproj2 hsorted2
        hall2 hps2]
    rw [List.append_assoc]
    simp only [List.length_append, List.length_cons, List.length_nil, List.map_cons,
      List.singleton_append]
    congr 1
    omega

/-- C2 counterexample: with `maxEntriesPerContract = 2`, putting the three
distinct sort keys `c, b, a` for one key in decreasing order leaves the two
entries `c` and `a` — not the two greatest written sort keys `b` and `c` —
because each put evicts by rank before inserting the (smaller) new key. -/
theorem c2_counterexample :
    (entriesFor (putMany 2 (fun _ => ("")) emptyStore ("K")
        [(("c"), JVal.jnull), (("b"), JVal.jnull), (("a"), JVal.jnull)]) ("K")).map Row.sort_key
      = [("c"), ("a")]
    ∧ ("b") ∉ (entriesFor (putMany 2 (fun _ => ("")) emptyStore ("K")
        [(("c"), JVal.jnull), (("b"), JVal.jnull), (("a"), JVal.jnull)]) ("K")).map Row.sort_key := by
  decide

/-- C2 (amended): with `maxEntriesPerContract = N ≥ 1` and `M > N` puts of
pairwise distinct sort keys against a key with no prior entries, exactly `N`
entries remain for that key afterwards, in any order of the puts; when the
sort keys are moreover written in increasing order, the remaining entries
are exactly the `N` most recently written `(sortKey, serialized value)`
pairs — the `N` greatest sort keys.  (In other orders the survivors need not
be the greatest sort keys, see the counterexample.) -/
theorem c2_putMany_retention (st0 : Store) (k : String) (maxE : Nat) (hN : 1 ≤ maxE)
    (genHash : String → String) (ps : List (String × JVal))
    (h0 : entriesFor st0 k = [])
    (hnd : (ps.map Prod.fst).Nodup) (hM : maxE < ps.length) :
    (entriesFor (putMany maxE genHash st0 k ps) k).length = maxE
    ∧ ((ps.map Prod.fst).Pairwise (fun a b => skLt a b = true) →
        (entriesFor (putMany maxE genHash st0 k ps) k).map (fun r => (r.sort_key, r.value))
          = (ps.map (fun p => (p.1, safeStringify p.2))).drop (ps.length - maxE)) := by
  constructor
  · have := putMany_count maxE hN genHash k ps st0 hnd
      (by
        intro p _
        rw [h0]
        simp)
      (by
        rw [h0]
        simp)
      (by
        rw [h0]
        simp)
    rw [this, h0]
    simp only [List.length_nil, Nat.zero_add]
    omega
  · intro hsorted
    have := putMany_sorted maxE hN genHash k ps st0 []
      (by
        rw [h0]
        simp)
      (by
        rw [h0]
        simp)
      (by
        intro p _ x hx
        rw [h0] at hx
        simp at hx)
      hsorted
    rw [this]
    simp

/-- C2 witness: three increasing puts with `maxEntriesPerContract = 1`. -/
theorem c2_putMany_retention_witness :
    (1 ≤ 1
      ∧ entriesFor emptyStore ("K") = []
      ∧ ([(("a"), JVal.jnull), (("b"), JVal.jnull), (("c"), JVal.jnull)].map Prod.fst).Nodup
      ∧ 1 < ([(("a"), JVal.jnull), (("b"), JVal.jnull), (("c"), JVal.jnull)] : List (String × JVal)).length)
    ∧ ((entriesFor (putMany 1 (fun _ => ("")) emptyStore ("K")
          [(("a"), JVal.jnull), (("b"), JVal.jnull), (("c"), JVal.jnull)]) ("K")).length = 1
      ∧ (([(("a"), JVal.jnull), (("b"), JVal.jnull), (("c"), JVal.jnull)].map Prod.fst).Pairwise
            (fun a b => skLt a b = true) →
          (entriesFor (putMany 1 (fun _ => ("")) emptyStore ("K")
              [(("a"), JVal.jnull), (("b"), JVal.jnull), (("c"), JVal.jnull)]) ("K")).map
              (fun r => (r.sort_key, r.value))
            = ([(("a"), JVal.jnull), (("b"), JVal.jnull), (("c"), JVal.jnull)].map
                (fun p => (p.1, safeStringify p.2))).drop
                (([(("a"), JVal.jnull), (("b"), JVal.jnull), (("c"), JVal.jnull)] :
                    List (String × JVal)).length - 1))) :=
  ⟨⟨by decide, by decide, by decide, by decide⟩,
   c2_putMany_retention emptyStore ("K") 1 (by decide) (fun _ => (""))
     [(("a"), JVal.jnull), (("b"), JVal.jnull), (("c"), JVal.jnull)]
     (by decide) (by decide) (by decide)⟩

/-! ## Claim C6: the value codec.  Character-level facts first. -/

theorem char_toNat_ofNat (n : Nat) (h : n < 0xd800) : (Char.ofNat n).toNat = n := by
  have hv : n.isValidChar := Or.inl h
  simp [Char.ofNat, hv, Char.ofNatAux, Char.toNat, UInt32.toNat]

theorem char_ofNat_toNat (c : Char) (h : c.toNat < 0xd800) : Char.ofNat c.toNat = c := by
  apply Char.ext
  apply UInt32.eq_of_toBitVec_eq
  apply BitVec.eq_of_toNat_eq
  have he := char_toNat_ofNat c.toNat h
  simpa [Char.toNat, UInt32.toNat] using he

theorem digitCh_isDigit : ∀ d, d < 10 → (digitCh d).isDigit = true := by decide

theorem digitCh_toNat : ∀ d, d < 10 → (digitCh d).toNat = 48 + d := by decide

theorem hexVal_hexDigitCh : ∀ d, d < 16 → hexVal (hexDigitCh d) = some d := by decide

theorem string_mk_data (s : String) : String.mk s.data = s := by
  cases s
  rfl

/-! ### The string-body escape roundtrip -/

theorem parseStringBody_escape :
    ∀ (cs rest : List Char), parseStringBody (escape cs ++ '"' :: rest) = some (cs, rest) := by
  intro cs
  induction cs with
  | nil =>
    intro rest
    rw [escape, List.nil_append, parseStringBody.eq_def]
    simp
  | cons c t ih =>
    intro rest
    rw [escape, List.append_assoc]
    by_cases hq : c = '"' ∨ c = '\\'
    · have hesc : escapeChar c = ['\\', c] := by
        rw [escapeChar, if_pos hq]
      rw [hesc]
      rcases hq with rfl | rfl
      · simp [parseStringBody, ih rest]
      · simp [parseStringBody, ih rest]
    · by_cases hc : c.toNat < 32
      · have hesc : escapeChar c
            = ['\\', 'u', Char.ofNat 48, Char.ofNat 48,
               hexDigitCh (c.toNat / 16), hexDigitCh (c.toNat % 16)] := by
          rw [escapeChar, if_neg hq, if_pos hc]
        have h48 : hexVal (Char.ofNat 48) = some 0 := by decide
        have hdiv : c.toNat / 16 < 16 := by omega
        have hmod : c.toNat % 16 < 16 := by omega
        have harith : 0 * 4096 + 0 * 256 + c.toNat / 16 * 16 + c.toNat % 16 = c.toNat := by
          omega
        have harith2 : c.toNat / 16 * 16 + c.toNat % 16 = c.toNat := by omega
        rw [hesc]
        simp [parseStringBody, h48, hexVal_hexDigitCh _ hdiv, hexVal_hexDigitCh _ hmod,
          ih rest, harith, harith2, char_ofNat_toNat c (by omega)]
      · have hesc : escapeChar c = [c] := by
          rw [escapeChar, if_neg hq, if_neg hc]
        rw [hesc]
        have h1 : ¬ (c = '"') := fun he => hq (Or.inl he)
        have h2 : ¬ (c = '\\') := fun he => hq (Or.inr he)
        simp only [List.cons_append, List.nil_append]
        rw [parseStringBody.eq_def]
        simp [h1, h2, ih rest]

/-! ### Decimal digits roundtrip -/

theorem natChars_ne_nil (m : Nat) : natChars m ≠ [] := by
  rw [natChars]
  by_cases h : m = 0
  · simp [h]
  · simp only [h, if_false]
    simp only [ne_eq, List.map_eq_nil_iff, List.reverse_eq_nil_iff]
    exact Nat.digits_ne_nil_iff_ne_zero.mpr h

theorem natChars_all_digits (m : Nat) : ∀ c ∈ natChars m, c.isDigit = true := by
  intro c hc
  rw [natChars] at hc
  by_cases h : m = 0
  · rw [h] at hc
    simp at hc
    rw [hc]
    decide
  · simp only [h, if_false] at hc
    rcases List.mem_map.mp hc with ⟨d, hd, rfl⟩
    have hd10 : d < 10 :=
      Nat.digits_lt_base (by norm_num) (List.mem_reverse.mp hd)
    exact digitCh_isDigit d hd10

theorem natChars_head (m : Nat) :
    ∃ c cs, natChars m = c :: cs ∧ c.isDigit = true := by
  cases he : natChars m with
  | nil => exact absurd he (natChars_ne_nil m)
  | cons c cs =>
    refine ⟨c, cs, rfl, ?_⟩
    apply natChars_all_digits m
    rw [he]
    exact List.mem_cons_self c cs

theorem takeWhile_append_all (p : α → Bool) (l1 l2 : List α) (h : ∀ a ∈ l1, p a = true) :
    (l1 ++ l2).takeWhile p = l1 ++ l2.takeWhile p := by
  induction l1 with
  | nil => simp
  | cons a t ih =>
    have ha : p a = true := h a (List.mem_cons_self a t)
    simp only [List.cons_append, List.takeWhile_cons, ha, if_true]
    rw [ih (fun x hx => h x (List.mem_cons_of_mem a hx))]

theorem dropWhile_append_all (p : α → Bool) (l1 l2 : List α) (h : ∀ a ∈ l1, p a = true) :
    (l1 ++ l2).dropWhile p = l2.dropWhile p := by
  induction l1 with
  | nil => simp
  | cons a t ih =>
    have ha : p a = true := h a (List.mem_cons_self a t)
    simp only [List.cons_append, List.dropWhile_cons, ha, if_true]
    exact ih (fun x hx => h x (List.mem_cons_of_mem a hx))

theorem foldl_digits (l : List Nat) (hl : ∀ d ∈ l, d < 10) (acc : Nat) :
    (l.reverse.map digitCh).foldl (fun a c => a * 10 + (c.toNat - 48)) acc
      = acc * 10 ^ l.length + Nat.ofDigits 10 l := by
  induction l generalizing acc with
  | nil => simp
  | cons d t ih =>
    have hd : d < 10 := hl d (List.mem_cons_self d t)
    have ht : ∀ x ∈ t, x < 10 := fun x hx => hl x (List.mem_cons_of_mem d hx)
    rw [List.reverse_cons, List.map_append, List.foldl_append, ih ht acc]
    simp only [List.map_cons, List.map_nil, List.foldl_cons, List.foldl_nil]
    rw [digitCh_toNat d hd, Nat.ofDigits_cons]
    have : 48 + d - 48 = d := by omega
    rw [this]
    simp only [List.length_cons]
    ring

theorem natFromDigitChars_natChars (m : Nat) : natFromDigitChars (natChars m) = m := by
  rw [natChars]
  by_cases h : m = 0
  · rw [h]
    decide
  · simp only [h, if_false]
    rw [natFromDigitChars]
    have hall : ∀ d ∈ Nat.digits 10 m, d < 10 :=
      fun d hd => Nat.digits_lt_base (by norm_num) hd
    rw [foldl_digits (Nat.digits 10 m) hall 0]
    rw [Nat.ofDigits_digits]
    omega

theorem parseNatChars_natChars (m : Nat) (rest : List Char)
    (hrest : ∀ c, rest.head? = some c → c.isDigit = false) :
    parseNatChars (natChars m ++ rest) = some (m, rest) := by
  have htw : (natChars m ++ rest).takeWhile (·.isDigit) = natChars m ++ rest.takeWhile (·.isDigit) :=
    takeWhile_append_all _ _ _ (natChars_all_digits m)
  have hdw : (natChars m ++ rest).dropWhile (·.isDigit) = rest.dropWhile (·.isDigit) :=
    dropWhile_append_all _ _ _ (natChars_all_digits m)
  have hrtw : rest.takeWhile (·.isDigit) = [] := by
    cases rest with
    | nil => rfl
    | cons c t =>
      have := hrest c rfl
      simp [List.takeWhile_cons, this]
  have hrdw : rest.dropWhile (·.isDigit) = rest := by
    cases rest with
    | nil => rfl
    | cons c t =>
      have := hrest c rfl
      simp [List.dropWhile_cons, this]
  rw [parseNatChars]
  simp only [htw, hdw, hrtw, hrdw, List.append_nil]
  have hne : (natChars m).isEmpty = false := by
    cases he : natChars m with
    | nil => exact absurd he (natChars_ne_nil m)
    | cons c t => rfl
  rw [hne]
  simp only [Bool.false_eq_true, if_false]
  rw [natFromDigitChars_natChars]

/-! ### Map forms of the mutual serializer helpers -/

theorem canonList_eq_map (xs : List JVal) : canonList xs = xs.map canon := by
  induction xs with
  | nil => rfl
  | cons x t ih => rw [canonList, List.map_cons, ih]

theorem canonFields_eq_map (fs : List (String × JVal)) :
    canonFields fs = fs.map (fun p => (p.1, canon p.2)) := by
  induction fs with
  | nil => rfl
  | cons p t ih =>
    cases p with
    | mk k v => rw [canonFields, List.map_cons, ih]

theorem encList_eq_map (xs : List JVal) : encList xs = xs.map encV := by
  induction xs with
  | nil => rfl
  | cons x t ih => rw [encList, List.map_cons, ih]

theorem encFieldsList_eq_map (fs : List (String × JVal)) :
    encFieldsList fs = fs.map (fun p => (p.1, encV p.2)) := by
  induction fs with
  | nil => rfl
  | cons p t ih =>
    cases p with
    | mk k v => rw [encFieldsList, List.map_cons, ih]

/-! ### The stable serializer only depends on the canonical form -/

theorem encV_canon : (v : JVal) → encV (canon v) = encV v
  | jnull => rfl
  | jbool b => rfl
  | jnum n => rfl
  | jstr s => rfl
  | jarr xs => by
    rw [canon, encV, encV, canonList_eq_map, encList_eq_map, encList_eq_map, List.map_map]
    have hm : xs.map (encV ∘ canon) = xs.map encV :=
      List.map_congr_left (fun x hx => encV_canon x)
    rw [hm]
  | jobj fs => by
    rw [canon, encV, encV, canonFields_eq_map, encFieldsList_eq_map, encFieldsList_eq_map]
    rw [← insSort_map keyLe keyLe (fun p => (p.1, encV p.2)) (fun a b => rfl)]
    rw [insSort_idem keyLe keyLe_total keyLe_trans, List.map_map]
    have hm : fs.map ((fun p : String × JVal => (p.1, encV p.2)) ∘
        (fun p : String × JVal => (p.1, canon p.2)))
        = fs.map (fun p => (p.1, encV p.2)) :=
      List.map_congr_left (fun p hp => by
        simp only [Function.comp]
        rw [encV_canon p.2])
    rw [hm]
termination_by v => sizeOf v
decreasing_by
  · have h1 := List.sizeOf_lt_of_mem hx
    simp only [JVal.jarr.sizeOf_spec]
    omega
  · have h1 := List.sizeOf_lt_of_mem hp
    cases p with
    | mk k v2 =>
      simp only [JVal.jobj.sizeOf_spec, Prod.mk.sizeOf_spec] at *
      omega

theorem safeStringify_canon (v : JVal) : safeStringify (canon v) = safeStringify v := by
  rw [safeStringify, safeStringify, encV_canon]

/-! ### Positivity and permutation-invariance of the fuel bounds -/

theorem fnVal_pos (v : JVal) : 1 ≤ fnVal v := by
  cases v <;> simp [fnVal]

theorem fnItems_pos : (xs : List JVal) → 1 ≤ fnItems xs
  | [] => by rw [fnItems]
  | [x] => by
    have he : fnItems [x] = 1 + fnVal x := by rw [fnItems]
    omega
  | x :: y :: t => by
    have he : fnItems (x :: y :: t) = 1 + fnVal x + fnItems (y :: t) := by
      rw [fnItems]
      simp
    omega

theorem fnFields_pos : (gs : List (String × JVal)) → 1 ≤ fnFields gs
  | [] => by rw [fnFields]
  | [p] => by
    have he : fnFields [p] = 1 + fnVal p.2 := by rw [fnFields]
    omega
  | p :: q :: t => by
    have he : fnFields (p :: q :: t) = 1 + fnVal p.2 + fnFields (q :: t) := by
      rw [fnFields]
      simp
    omega

theorem fnFields_sum : (gs : List (String × JVal)) → gs ≠ [] →
    fnFields gs = gs.length + (gs.map (fun f => fnVal f.2)).sum
  | [], h => absurd rfl h
  | [p], _ => by
    have he : fnFields [p] = 1 + fnVal p.2 := by rw [fnFields]
    simp [he]
  | p :: q :: t, _ => by
    have he : fnFields (p :: q :: t) = 1 + fnVal p.2 + fnFields (q :: t) := by
      rw [fnFields]
      simp
    rw [he, fnFields_sum (q :: t) (by simp)]
    simp only [List.map_cons, List.sum_cons, List.length_cons]
    omega

theorem fnFields_perm {gs1 gs2 : List (String × JVal)} (h : List.Perm gs1 gs2) :
    fnFields gs1 = fnFields gs2 := by
  cases gs1 with
  | nil =>
    cases gs2 with
    | nil => rfl
    | cons q s =>
      have := h.length_eq
      simp at this
  | cons p t =>
    cases gs2 with
    | nil =>
      have := h.length_eq
      simp at this
    | cons q s =>
      rw [fnFields_sum (p :: t) (by simp), fnFields_sum (q :: s) (by simp), h.length_eq,
        List.Perm.sum_eq (h.map (fun f => fnVal f.2))]

/-! ### Head shapes of the serializer output -/

theorem natChars_head_digitCh (m : Nat) : ∃ d t, d < 10 ∧ natChars m = digitCh d :: t := by
  rw [natChars]
  by_cases h : m = 0
  · refine ⟨0, [], by omega, ?_⟩
    simp only [h, if_pos rfl]
    rfl
  · simp only [h, if_false]
    cases he : (Nat.digits 10 m).reverse with
    | nil =>
      have hnil : Nat.digits 10 m = [] := List.reverse_eq_nil_iff.mp he
      exact absurd hnil (Nat.digits_ne_nil_iff_ne_zero.mpr h)
    | cons d t =>
      refine ⟨d, t.map digitCh, ?_, by rw [List.map_cons]⟩
      have hmem : d ∈ (Nat.digits 10 m).reverse := by
        rw [he]
        exact List.mem_cons_self d t
      exact Nat.digits_lt_base (by norm_num) (List.mem_reverse.mp hmem)

theorem intChars_head (n : Int) :
    ∃ c t, intChars n = c :: t ∧ (c = '-' ∨ c.isDigit = true) := by
  rw [intChars]
  by_cases h : n < 0
  · refine ⟨'-', natChars n.natAbs, ?_, Or.inl rfl⟩
    rw [if_pos h]
  · simp only [h, if_false]
    obtain ⟨d, t, hd, he⟩ := natChars_head_digitCh n.toNat
    exact ⟨digitCh d, t, he, Or.inr (digitCh_isDigit d hd)⟩

theorem isDigit_ne (c x : Char) (hd : c.isDigit = true) (hx : x.isDigit = false) : c ≠ x := by
  intro hcontra
  rw [hcontra, hx] at hd
  exact Bool.false_ne_true hd

theorem encV_head (v : JVal) :
    ∃ c t, encV v = c :: t ∧ c ≠ ']' ∧ c ≠ '\x7d' ∧ c ≠ ',' := by
  cases v with
  | jnull => exact ⟨'n', ['u', 'l', 'l'], rfl, by decide, by decide, by decide⟩
  | jbool b =>
    cases b
    · exact ⟨'f', ['a', 'l', 's', 'e'], rfl, by decide, by decide, by decide⟩
    · exact ⟨'t', ['r', 'u', 'e'], rfl, by decide, by decide, by decide⟩
  | jnum n =>
    obtain ⟨c, t, he, hc⟩ := intChars_head n
    refine ⟨c, t, by rw [encV]; exact he, ?_, ?_, ?_⟩
    all_goals rcases hc with rfl | hd
    · decide
    · exact isDigit_ne c (']') hd (by decide)
    · decide
    · exact isDigit_ne c ('\x7d') hd (by decide)
    · decide
    · exact isDigit_ne c (',') hd (by decide)
  | jstr s =>
    exact ⟨'"', escape s.data ++ ['"'], rfl, by decide, by decide, by decide⟩
  | jarr xs =>
    exact ⟨'[', joinComma (encList xs) ++ [']'], rfl, by decide, by decide, by decide⟩
  | jobj fs =>
    exact ⟨'\x7b', joinComma ((insSort keyLe (encFieldsList fs)).map renderField) ++ ['\x7d'],
      rfl, by decide, by decide, by decide⟩

/-! ### The fuel bound is at most the serialized length -/

theorem fnItems_le : (xs : List JVal) → (∀ x ∈ xs, fnVal x ≤ (encV x).length) →
    fnItems xs ≤ (joinComma (encList xs)).length + 1
  | [], _ => by
    rw [fnItems, encList, joinComma]
    simp
  | [x], h => by
    have hx := h x (List.mem_cons_self x [])
    have he : fnItems [x] = 1 + fnVal x := by rw [fnItems]
    have hj : joinComma (encList [x]) = encV x := by rw [encList, encList, joinComma]
    rw [he, hj]
    omega
  | x :: y :: ts, h => by
    have hx := h x (List.mem_cons_self x (y :: ts))
    have hr := fnItems_le (y :: ts) (fun z hz => h z (List.mem_cons_of_mem x hz))
    have he : fnItems (x :: y :: ts) = 1 + fnVal x + fnItems (y :: ts) := by
      rw [fnItems]
      simp
    have hj : joinComma (encList (x :: y :: ts))
        = encV x ++ ',' :: joinComma (encList (y :: ts)) := by
      rw [encList, encList, joinComma]
      simp
    rw [he, hj]
    simp only [List.length_append, List.length_cons]
    omega

theorem fnFields_le : (gs : List (String × JVal)) →
    (∀ p ∈ gs, fnVal p.2 ≤ (encV p.2).length) →
    fnFields gs ≤ (joinComma ((gs.map (fun p => (p.1, encV p.2))).map renderField)).length + 1
  | [], _ => by
    rw [fnFields]
    simp [joinComma]
  | [p], h => by
    have hp := h p (List.mem_cons_self p [])
    have he : fnFields [p] = 1 + fnVal p.2 := by rw [fnFields]
    have hj : joinComma (([p].map (fun p => (p.1, encV p.2))).map renderField)
        = renderField (p.1, encV p.2) := by
      simp [joinComma]
    rw [he, hj, renderField]
    simp only [List.length_append, List.length_cons]
    omega
  | p :: q :: ts, h => by
    have hp := h p (List.mem_cons_self p (q :: ts))
    have hr := fnFields_le (q :: ts) (fun z hz => h z (List.mem_cons_of_mem p hz))
    have he : fnFields (p :: q :: ts) = 1 + fnVal p.2 + fnFields (q :: ts) := by
      rw [fnFields]
      simp
    have hj : joinComma (((p :: q :: ts).map (fun p => (p.1, encV p.2))).map renderField)
        = renderField (p.1, encV p.2)
          ++ ',' :: joinComma (((q :: ts).map (fun p => (p.1, encV p.2))).map renderField) := by
      rw [List.map_cons, List.map_cons, List.map_cons, List.map_cons, joinComma]
      simp
    rw [he, hj, renderField]
    simp only [List.length_append, List.length_cons]
    omega

theorem fnVal_le : (v : JVal) → fnVal v ≤ (encV v).length
  | jnull => by decide
  | jbool b => by cases b <;> decide
  | jnum n => by
    rw [fnVal, encV]
    obtain ⟨c, t, he, _⟩ := intChars_head n
    rw [he]
    simp
  | jstr s => by
    rw [fnVal, encV, strChars]
    simp
  | jarr xs => by
    have hA := fnItems_le xs (fun x hx => fnVal_le x)
    rw [fnVal, encV]
    simp only [List.length_cons, List.length_append]
    omega
  | jobj fs => by
    have hmem : ∀ p ∈ insSort keyLe fs, fnVal p.2 ≤ (encV p.2).length := fun p hp =>
      fnVal_le p.2
    have hB := fnFields_le (insSort keyLe fs) hmem
    have hmap : (insSort keyLe fs).map (fun p => (p.1, encV p.2))
        = insSort keyLe (encFieldsList fs) := by
      rw [encFieldsList_eq_map,
        insSort_map keyLe keyLe (fun p : String × JVal => (p.1, encV p.2)) (fun a b => rfl)]
    rw [hmap, fnFields_perm (insSort_perm keyLe fs)] at hB
    rw [fnVal, encV]
    simp only [List.length_cons, List.length_append] at *
    omega
termination_by v => sizeOf v
decreasing_by
  · have h1 := List.sizeOf_lt_of_mem hx
    simp only [JVal.jarr.sizeOf_spec]
    omega
  · have h2 : p ∈ fs := (insSort_perm keyLe fs).mem_iff.mp hp
    have h1 := List.sizeOf_lt_of_mem h2
    cases p with
    | mk k v2 =>
      simp only [JVal.jobj.sizeOf_spec, Prod.mk.sizeOf_spec] at *
      omega

/-! ### One-step reductions of the parser on serializer-shaped input -/

theorem parseV_null (fuel : Nat) (rest : List Char) :
    parseV (fuel + 1) ('n' :: 'u' :: 'l' :: 'l' :: rest) = some (jnull, rest) := rfl

theorem parseV_true (fuel : Nat) (rest : List Char) :
    parseV (fuel + 1) ('t' :: 'r' :: 'u' :: 'e' :: rest) = some (jbool true, rest) := rfl

theorem parseV_false (fuel : Nat) (rest : List Char) :
    parseV (fuel + 1) ('f' :: 'a' :: 'l' :: 's' :: 'e' :: rest) = some (jbool false, rest) := rfl

theorem parseV_quote (fuel : Nat) (l : List Char) :
    parseV (fuel + 1) ('"' :: l) =
      (match parseStringBody l with
       | some (cs, r2) => some (jstr (String.mk cs), r2)
       | none => none) := rfl

theorem parseV_lbracket (fuel : Nat) (l : List Char) :
    parseV (fuel + 1) ('[' :: l) =
      (match parseItems fuel l with
       | some (xs, r2) => some (jarr xs, r2)
       | none => none) := rfl

theorem parseV_lbrace (fuel : Nat) (l : List Char) :
    parseV (fuel + 1) ('\x7b' :: l) =
      (match parseFields fuel l with
       | some (fs, r2) => some (jobj fs, r2)
       | none => none) := rfl

theorem parseV_minus (fuel : Nat) (l : List Char) :
    parseV (fuel + 1) ('-' :: l) =
      (match parseNatChars l with
       | some (n, r) => some (jnum (-(n : Int)), r)
       | none => none) := rfl

theorem parseV_digitCh (fuel : Nat) (d : Nat) (hd : d < 10) (l : List Char) :
    parseV (fuel + 1) (digitCh d :: l) =
      (match parseNatChars (digitCh d :: l) with
       | some (n, r) => some (jnum (n : Int), r)
       | none => none) := by
  interval_cases d <;> rfl

theorem parseItems_close (fuel : Nat) (rest : List Char) :
    parseItems (fuel + 1) (']' :: rest) = some ([], rest) := rfl

theorem parseItems_entry (fuel : Nat) (c : Char) (t : List Char) (hc : c ≠ ']') :
    parseItems (fuel + 1) (c :: t) =
      (match parseV fuel (c :: t) with
       | some (v, l2) =>
         match l2 with
         | ',' :: l3 =>
           (match parseItems fuel l3 with
            | some (vs, l4) => some (v :: vs, l4)
            | none => none)
         | ']' :: l3 => some ([v], l3)
         | _ => none
       | none => none) := by
  rw [parseItems]
  rw [if_neg (by simp [hc])]

theorem parseFields_close (fuel : Nat) (rest : List Char) :
    parseFields (fuel + 1) ('\x7d' :: rest) = some ([], rest) := rfl

theorem parseFields_quote (fuel : Nat) (l : List Char) :
    parseFields (fuel + 1) ('"' :: l) =
      (match parseStringBody l with
       | some (kcs, l3) =>
         match l3 with
         | ':' :: l4 =>
           (match parseV fuel l4 with
            | some (v, l5) =>
              match l5 with
              | ',' :: l6 =>
                (match parseFields fuel l6 with
                 | some (fs, l7) => some ((String.mk kcs, v) :: fs, l7)
                 | none => none)
              | '\x7d' :: l6 => some ([(String.mk kcs, v)], l6)
              | _ => none
            | none => none)
         | _ => none
       | none => none) := rfl

theorem head_sep_not_digit (c : Char) (hc : c.isDigit = false) (l : List Char) :
    ∀ c0, (c :: l).head? = some c0 → c0.isDigit = false := by
  intro c0 h0
  rw [List.head?_cons] at h0
  injection h0 with h1
  rw [← h1]
  exact hc

/-! ### Parsing undoes the stable serializer, up to canonical form -/

theorem parse_enc : ∀ fuel : Nat,
    (∀ v rest, fnVal v ≤ fuel → (∀ c, rest.head? = some c → c.isDigit = false) →
      parseV fuel (encV v ++ rest) = some (canon v, rest))
  ∧ (∀ xs rest, fnItems xs ≤ fuel →
      parseItems fuel (joinComma (encList xs) ++ ']' :: rest) = some (canonList xs, rest))
  ∧ (∀ gs rest, fnFields gs ≤ fuel →
      parseFields fuel
        (joinComma ((gs.map (fun p => (p.1, encV p.2))).map renderField) ++ '\x7d' :: rest)
      = some (gs.map (fun p => (p.1, canon p.2)), rest)) := by
  intro fuel
  induction fuel with
  | zero =>
    refine ⟨?_, ?_, ?_⟩
    · intro v rest hf _
      have := fnVal_pos v
      omega
    · intro xs rest hf
      have := fnItems_pos xs
      omega
    · intro gs rest hf
      have := fnFields_pos gs
      omega
  | succ fuel ih =>
    obtain ⟨ihv, ihi, ihf⟩ := ih
    refine ⟨?_, ?_, ?_⟩
    · intro v rest hf hnd
      cases v with
      | jnull =>
        have he : encV jnull ++ rest = 'n' :: 'u' :: 'l' :: 'l' :: rest := rfl
        rw [he, parseV_null]
        rfl
      | jbool b =>
        cases b
        · have he : encV (jbool false) ++ rest = 'f' :: 'a' :: 'l' :: 's' :: 'e' :: rest := rfl
          rw [he, parseV_false]
          rfl
        · have he : encV (jbool true) ++ rest = 't' :: 'r' :: 'u' :: 'e' :: rest := rfl
          rw [he, parseV_true]
          rfl
      | jnum n =>
        by_cases hn : n < 0
        · have he : encV (jnum n) ++ rest = '-' :: (natChars n.natAbs ++ rest) := by
            rw [encV, intChars, if_pos hn, List.cons_append]
          rw [he, parseV_minus, parseNatChars_natChars n.natAbs rest hnd]
          have hv : -((n.natAbs : Int)) = n := by omega
          show some (jnum (-((n.natAbs : Int))), rest) = some (canon (jnum n), rest)
          rw [hv]
          rfl
        · have he : encV (jnum n) ++ rest = natChars n.toNat ++ rest := by
            rw [encV, intChars, if_neg hn]
          obtain ⟨d, t, hd, hnc⟩ := natChars_head_digitCh n.toNat
          have he2 : natChars n.toNat ++ rest = digitCh d :: (t ++ rest) := by
            rw [hnc, List.cons_append]
          rw [he, he2, parseV_digitCh fuel d hd, ← List.cons_append, ← hnc,
            parseNatChars_natChars n.toNat rest hnd]
          have hv : ((n.toNat : Int)) = n := by omega
          show some (jnum ((n.toNat : Int)), rest) = some (canon (jnum n), rest)
          rw [hv]
          rfl
      | jstr s =>
        have he : encV (jstr s) ++ rest = '"' :: (escape s.data ++ '"' :: rest) := by
          rw [encV, strChars]
          simp
        rw [he, parseV_quote, parseStringBody_escape s.data rest]
        simp [canon, string_mk_data]
      | jarr xs =>
        have he : encV (jarr xs) ++ rest = '[' :: (joinComma (encList xs) ++ ']' :: rest) := by
          rw [encV]
          simp
        have hfi : fnItems xs ≤ fuel := by
          rw [fnVal] at hf
          omega
        rw [he, parseV_lbracket, ihi xs rest hfi]
        simp [canon]
      | jobj fs =>
        have hmap : insSort keyLe (encFieldsList fs)
            = (insSort keyLe fs).map (fun p => (p.1, encV p.2)) := by
          rw [encFieldsList_eq_map,
            insSort_map keyLe keyLe (fun p : String × JVal => (p.1, encV p.2)) (fun a b => rfl)]
        have he : encV (jobj fs) ++ rest
            = '\x7b' :: (joinComma (((insSort keyLe fs).map (fun p => (p.1, encV p.2))).map
                renderField) ++ '\x7d' :: rest) := by
          rw [encV, hmap]
          simp
        have hff : fnFields (insSort keyLe fs) ≤ fuel := by
          rw [fnVal] at hf
          rw [fnFields_perm (insSort_perm keyLe fs)]
          omega
        have hcan : canon (jobj fs) = jobj ((insSort keyLe fs).map (fun p => (p.1, canon p.2))) := by
          rw [canon, canonFields_eq_map,
            insSort_map keyLe keyLe (fun p : String × JVal => (p.1, canon p.2)) (fun a b => rfl)]
        rw [he, parseV_lbrace, ihf (insSort keyLe fs) rest hff, hcan]
    · intro xs rest hfi
      cases xs with
      | nil =>
        have he : joinComma (encList ([] : List JVal)) ++ ']' :: rest = ']' :: rest := rfl
        rw [he, parseItems_close]
        rfl
      | cons x t =>
        obtain ⟨c, ct, hex, hc1, hc2, hc3⟩ := encV_head x
        cases t with
        | nil =>
          have he : joinComma (encList [x]) ++ ']' :: rest = encV x ++ ']' :: rest := by
            rw [encList, encList, joinComma]
          have hfx : fnVal x ≤ fuel := by
            have hi : fnItems [x] = 1 + fnVal x := by rw [fnItems]
            omega
          have hhd : encV x ++ ']' :: rest = c :: (ct ++ ']' :: rest) := by
            rw [hex, List.cons_append]
          rw [he, hhd, parseItems_entry fuel c _ hc1, ← hhd,
            ihv x (']' :: rest) hfx (head_sep_not_digit (']') (by decide) rest)]
          simp [canonList]
        | cons y ts =>
          have he : joinComma (encList (x :: y :: ts)) ++ ']' :: rest
              = encV x ++ ',' :: (joinComma (encList (y :: ts)) ++ ']' :: rest) := by
            rw [encList, encList, joinComma]
            · simp
            · simp
          have hfb : fnItems (x :: y :: ts) = 1 + fnVal x + fnItems (y :: ts) := by
            rw [fnItems]
            simp
          have hfx : fnVal x ≤ fuel := by omega
          have hft : fnItems (y :: ts) ≤ fuel := by omega
          have hhd : encV x ++ ',' :: (joinComma (encList (y :: ts)) ++ ']' :: rest)
              = c :: (ct ++ ',' :: (joinComma (encList (y :: ts)) ++ ']' :: rest)) := by
            rw [hex, List.cons_append]
          rw [he, hhd, parseItems_entry fuel c _ hc1, ← hhd,
            ihv x (',' :: (joinComma (encList (y :: ts)) ++ ']' :: rest)) hfx
              (head_sep_not_digit (',') (by decide) _)]
          show (match parseItems fuel (joinComma (encList (y :: ts)) ++ ']' :: rest) with
                | some (vs, l4) => some (canon x :: vs, l4)
                | none => none) = some (canonList (x :: y :: ts), rest)
          rw [ihi (y :: ts) rest hft]
          rfl
    · intro gs rest hfg
      cases gs with
      | nil =>
        have he : joinComma ((([] : List (String × JVal)).map
            (fun p => (p.1, encV p.2))).map renderField) ++ '\x7d' :: rest = '\x7d' :: rest := rfl
        rw [he, parseFields_close]
        rfl
      | cons p t =>
        cases t with
        | nil =>
          have he : joinComma (([p].map (fun p => (p.1, encV p.2))).map renderField)
                ++ '\x7d' :: rest
              = '"' :: (escape p.1.data ++ '"' :: (':' :: (encV p.2 ++ '\x7d' :: rest))) := by
            simp only [List.map_cons, List.map_nil, joinComma, renderField, strChars]
            simp
          have hfx : fnVal p.2 ≤ fuel := by
            have hi : fnFields [p] = 1 + fnVal p.2 := by rw [fnFields]
            omega
          rw [he, parseFields_quote, parseStringBody_escape p.1.data]
          show (match parseV fuel (encV p.2 ++ '\x7d' :: rest) with
                | some (v, l5) =>
                  match l5 with
                  | ',' :: l6 =>
                    (match parseFields fuel l6 with
                     | some (fs, l7) => some ((String.mk p.1.data, v) :: fs, l7)
                     | none => none)
                  | '\x7d' :: l6 => some ([(String.mk p.1.data, v)], l6)
                  | _ => none
                | none => none) = some ([(p.1, canon p.2)], rest)
          rw [ihv p.2 ('\x7d' :: rest) hfx (head_sep_not_digit ('\x7d') (by decide) rest)]
          show some ([(String.mk p.1.data, canon p.2)], rest) = some ([(p.1, canon p.2)], rest)
          rw [string_mk_data]
        | cons q ts =>
          have he : joinComma (((p :: q :: ts).map (fun p => (p.1, encV p.2))).map renderField)
                ++ '\x7d' :: rest
              = '"' :: (escape p.1.data ++ '"' :: (':' :: (encV p.2
                  ++ ',' :: (joinComma (((q :: ts).map (fun p => (p.1, encV p.2))).map
                    renderField) ++ '\x7d' :: rest)))) := by
            rw [List.map_cons, List.map_cons, List.map_cons, List.map_cons, joinComma]
            · simp only [renderField, strChars]
              simp
            · simp
          have hfb : fnFields (p :: q :: ts) = 1 + fnVal p.2 + fnFields (q :: ts) := by
            rw [fnFields]
            simp
          have hfx : fnVal p.2 ≤ fuel := by omega
          have hft : fnFields (q :: ts) ≤ fuel := by omega
          rw [he, parseFields_quote, parseStringBody_escape p.1.data]
          show (match parseV fuel (encV p.2
                  ++ ',' :: (joinComma (((q :: ts).map (fun p => (p.1, encV p.2))).map
                    renderField) ++ '\x7d' :: rest)) with
                | some (v, l5) =>
                  match l5 with
                  | ',' :: l6 =>
                    (match parseFields fuel l6 with
                     | some (fs, l7) => some ((String.mk p.1.data, v) :: fs, l7)
                     | none => none)
                  | '\x7d' :: l6 => some ([(String.mk p.1.data, v)], l6)
                  | _ => none
                | none => none)
              = some ((p.1, canon p.2) :: (q :: ts).map (fun p => (p.1, canon p.2)), rest)
          rw [ihv p.2 _ hfx (head_sep_not_digit (',') (by decide) _)]
          show (match parseFields fuel (joinComma (((q :: ts).map (fun p => (p.1, encV p.2))).map
                  renderField) ++ '\x7d' :: rest) with
                | some (fs, l7) => some ((String.mk p.1.data, canon p.2) :: fs, l7)
                | none => none)
              = some ((p.1, canon p.2) :: (q :: ts).map (fun p => (p.1, canon p.2)), rest)
          rw [ihf (q :: ts) rest hft]

theorem jsonParse_safeStringify (v : JVal) : jsonParse (safeStringify v) = some (canon v) := by
  rw [jsonParse]
  have hdata : (safeStringify v).data = encV v := rfl
  rw [hdata]
  have hle : fnVal v ≤ (encV v).length + 1 := by
    have := fnVal_le v
    omega
  have hp := (parse_enc ((encV v).length + 1)).1 v [] hle (by
    intro c h0
    simp at h0)
  rw [List.append_nil] at hp
  rw [hp]

/-- C6 (bug demonstration): a concrete call of the newer `put` (lines
442-466) throws at prepare — its INSERT names `validity_hash`, which the
schema (lines 348-362) does not have — leaving only the eviction applied
and storing no text at all. -/
theorem c6_counterexample :
    putJson 10 emptyStore ("K") ("s") (jobj [(("a"), jnull)])
      = Except.error ((("table sort_key_cache has no column named validity_hash")),
          emptyStore) := rfl

/-- **C6** (code bug in the newer variant): for the older `put` (line 149),
which serializes with `safe-stable-stringify` (modelled by `safeStringify`),
the claim holds: two structurally equal values — equal canonical forms,
i.e. the same keys and values at every nesting level regardless of field
insertion order — produce byte-identical stored text, and deserializing the
stored text with `JSON.parse` (modelled by `jsonParse`) recovers the
canonical form of the original value, which is structurally equal to it.
The newer `put` (line 456), however, can never store any text: its INSERT
names the column `validity_hash`, absent from the schema, so every call
throws at prepare with only the prior eviction applied — a code bug against
the claim, which expects `put` to produce stored text. -/
theorem c6_codec_spec :
    (∀ v w : JVal, canon v = canon w → safeStringify v = safeStringify w) ∧
    (∀ v : JVal, jsonParse (safeStringify v) = some (canon v)) ∧
    (∀ (maxE : Nat) (st : Store) (k sk : String) (v : JVal),
      putJson maxE st k sk v
        = Except.error ((("table sort_key_cache has no column named validity_hash")),
            removeOldestEntries maxE st k)) := by
  refine ⟨?_, jsonParse_safeStringify, ?_⟩
  · intro v w h
    rw [← safeStringify_canon v, ← safeStringify_canon w, h]
  · intro maxE st k sk v
    rfl

/-- Witness for C6: the two codec halves and the always-failing newer `put`
applied at concrete inputs, the structural-equality hypothesis discharged
by evaluation. -/
theorem c6_codec_spec_witness :
    safeStringify (jobj [(("b"), jnull), (("a"), jbool true)])
      = safeStringify (jobj [(("a"), jbool true), (("b"), jnull)]) ∧
    jsonParse (safeStringify (jobj [(("b"), jnull), (("a"), jbool true)]))
      = some (canon (jobj [(("b"), jnull), (("a"), jbool true)])) ∧
    putJson 5 emptyStore ("C") ("t") jnull
      = Except.error ((("table sort_key_cache has no column named validity_hash")),
          removeOldestEntries 5 emptyStore ("C")) :=
  ⟨c6_codec_spec.1 (jobj [(("b"), jnull), (("a"), jbool true)])
      (jobj [(("a"), jbool true), (("b"), jnull)]) rfl,
    c6_codec_spec.2.1 (jobj [(("b"), jnull), (("a"), jbool true)]),
    c6_codec_spec.2.2 5 emptyStore ("C") ("t") jnull⟩

end WarpSqlite
